import Mathlib

/-!
# Verification of the aishield obfuscation engine

A shallow embedding of the core of the `aishield` repository
(`aishield/minify.py`, `aishield/unminify.py`, `aishield/base.py` and the
language adapters), together with theorems settling the specification
claims about it.

Texts are modelled as Lean `String`s (Python `str`), byte buffers as
`List Nat` (Python `bytes`, each entry one byte), and Python dicts as
insertion-ordered association lists `List (String × String)`.
-/

/-! ## MD5 (`hashlib.md5`)

The engine derives every token from `int(hashlib.md5(...).hexdigest(), 16)`.
This section implements MD5 exactly (RFC 1321): `md5String s` is the value
of `int(hashlib.md5(s.encode('utf-8')).hexdigest(), 16)`.
-/

namespace MD5

def M32 : Nat := 4294967296

def shifts : List Nat :=
  [7, 12, 17, 22, 7, 12, 17, 22, 7, 12, 17, 22, 7, 12, 17, 22,
   5, 9, 14, 20, 5, 9, 14, 20, 5, 9, 14, 20, 5, 9, 14, 20,
   4, 11, 16, 23, 4, 11, 16, 23, 4, 11, 16, 23, 4, 11, 16, 23,
   6, 10, 15, 21, 6, 10, 15, 21, 6, 10, 15, 21, 6, 10, 15, 21]

def sines : List Nat :=
  [3614090360, 3905402710, 606105819, 3250441966,
   4118548399, 1200080426, 2821735955, 4249261313,
   1770035416, 2336552879, 4294925233, 2304563134,
   1804603682, 4254626195, 2792965006, 1236535329,
   4129170786, 3225465664, 643717713, 3921069994,
   3593408605, 38016083, 3634488961, 3889429448,
   568446438, 3275163606, 4107603335, 1163531501,
   2850285829, 4243563512, 1735328473, 2368359562,
   4294588738, 2272392833, 1839030562, 4259657740,
   2763975236, 1272893353, 4139469664, 3200236656,
   681279174, 3936430074, 3572445317, 76029189,
   3654602809, 3873151461, 530742520, 3299628645,
   4096336452, 1126891415, 2878612391, 4237533241,
   1700485571, 2399980690, 4293915773, 2240044497,
   1873313359, 4264355552, 2734768916, 1309151649,
   4149444226, 3174756917, 718787259, 3951481745]

def nth (l : List Nat) (i : Nat) : Nat := l.getD i 0

def bnot32 (x : Nat) : Nat := x ^^^ (M32 - 1)

def rotl (x n : Nat) : Nat := ((x <<< n) ||| (x >>> (32 - n))) % M32

structure St where
  a : Nat
  b : Nat
  c : Nat
  d : Nat
deriving Repr, DecidableEq

def initSt : St := ⟨1732584193, 4023233417, 2562383102, 271733878⟩

def roundStep (m : List Nat) (st : St) (i : Nat) : St :=
  let f :=
    if i < 16 then (st.b &&& st.c) ||| (bnot32 st.b &&& st.d)
    else if i < 32 then (st.d &&& st.b) ||| (bnot32 st.d &&& st.c)
    else if i < 48 then st.b ^^^ st.c ^^^ st.d
    else st.c ^^^ (st.b ||| bnot32 st.d)
  let g :=
    if i < 16 then i
    else if i < 32 then (5 * i + 1) % 16
    else if i < 48 then (3 * i + 5) % 16
    else (7 * i) % 16
  let f2 := (f + st.a + nth sines i + nth m g) % M32
  { a := st.d, b := (st.b + rotl f2 (nth shifts i)) % M32, c := st.b, d := st.c }

def wordsOfBlock (block : List Nat) : List Nat :=
  (List.range 16).map fun j =>
    nth block (4 * j) + 256 * nth block (4 * j + 1) +
      65536 * nth block (4 * j + 2) + 16777216 * nth block (4 * j + 3)

def compress (st : St) (block : List Nat) : St :=
  let m := wordsOfBlock block
  let r := (List.range 64).foldl (roundStep m) st
  ⟨(st.a + r.a) % M32, (st.b + r.b) % M32, (st.c + r.c) % M32, (st.d + r.d) % M32⟩

/-- Little-endian byte serialization of `v`, `k` bytes. -/
def lenBytesLE : Nat → Nat → List Nat
  | 0, _ => []
  | k + 1, v => v % 256 :: lenBytesLE k (v / 256)

def padMsg (msg : List Nat) : List Nat :=
  let withOne := msg ++ [128]
  let zeros := (64 + 56 - (withOne.length % 64)) % 64
  withOne ++ List.replicate zeros 0 ++ lenBytesLE 8 ((8 * msg.length) % (2 ^ 64))

def blocksGo : Nat → St → List Nat → St
  | 0, st, _ => st
  | fuel + 1, st, bytes =>
    match bytes with
    | [] => st
    | _ => blocksGo fuel (compress st (bytes.take 64)) (bytes.drop 64)

def digestBytes (st : St) : List Nat :=
  lenBytesLE 4 st.a ++ lenBytesLE 4 st.b ++ lenBytesLE 4 st.c ++ lenBytesLE 4 st.d

/-- The digest read as `int(hexdigest, 16)`: hex digest is the digest bytes
in big-endian positional order. -/
def md5Of (msg : List Nat) : Nat :=
  let padded := padMsg msg
  let st := blocksGo (padded.length + 1) initSt padded
  (digestBytes st).foldl (fun acc b => acc * 256 + b) 0

end MD5

/-- UTF-8 encoding of one character (Python `str.encode('utf-8')`,
one scalar value). -/
def utf8Char (c : Char) : List Nat :=
  let n := c.toNat
  if n < 128 then [n]
  else if n < 2048 then [192 ||| (n >>> 6), 128 ||| (n &&& 63)]
  else if n < 65536 then
    [224 ||| (n >>> 12), 128 ||| ((n >>> 6) &&& 63), 128 ||| (n &&& 63)]
  else
    [240 ||| (n >>> 18), 128 ||| ((n >>> 12) &&& 63),
     128 ||| ((n >>> 6) &&& 63), 128 ||| (n &&& 63)]

/-- `s.encode('utf-8')` as a byte list. -/
def utf8 (s : String) : List Nat := s.data.flatMap utf8Char

/-- `int(hashlib.md5(text.encode('utf-8')).hexdigest(), 16)`. -/
def md5String (s : String) : Nat := MD5.md5Of (utf8 s)

/-- Decimal digit characters of `n` (most significant first); fuel-driven so
that it is structurally recursive and kernel-reducible. -/
def decDigits : Nat → Nat → List Char
  | 0, _ => []
  | fuel + 1, n =>
    if n < 10 then [Nat.digitChar n]
    else decDigits fuel (n / 10) ++ [Nat.digitChar (n % 10)]

/-- Python's decimal formatting of a nonnegative integer (`str(n)` /
`f'{n}'`). -/
def natToStr (n : Nat) : String := ⟨decDigits (n + 1) n⟩

namespace ObfuscationEngine

/-- `ObfuscationEngine.deterministic_hash` (minify.py lines 136-143).
The unused `counter=None` parameter of the Python function is omitted. -/
def deterministic_hash (text : String) : String :=
  let hash_int := md5String text
  let prefixes : List String := ["T", "C", "D", "E"]
  prefixes.getD (hash_int % prefixes.length) "" ++ natToStr (hash_int % 9999)

/-- `ObfuscationEngine.obfuscate_string_literal` (minify.py lines 145-160):
token for a string literal's dequoted content. -/
def obfuscate_string_literal (string_value : String) : String :=
  let hash_int := md5String ("str_" ++ string_value)
  let prefixes : List String := ["E", "S", "H", "L"]
  prefixes.getD (hash_int % prefixes.length) "" ++ natToStr (hash_int % 99999)

end ObfuscationEngine

/-! ## Basic text utilities (Python `str` operations) -/

/-- ASCII lowercase test (regex `[a-z]`). -/
def isLowerAZ (c : Char) : Bool := 'a' ≤ c && c ≤ 'z'

/-- ASCII uppercase test (regex `[A-Z]`). -/
def isUpperAZ (c : Char) : Bool := 'A' ≤ c && c ≤ 'Z'

/-- Python `str.lower()` (ASCII range; the adapters only compare ASCII
pattern strings). -/
def lowerStr (s : String) : String := ⟨s.data.map Char.toLower⟩

/-- Python substring containment `needle in hay` for strings. -/
def listContainsSub (needle : List Char) : List Char → Bool
  | [] => needle.isEmpty
  | c :: rest => needle.isPrefixOf (c :: rest) || listContainsSub needle rest

def strContains (hay needle : String) : Bool := listContainsSub needle.data hay.data

/-- Python whitespace characters recognised by `str.split()`. -/
def isPySpace (c : Char) : Bool :=
  c = ' ' || c = Char.ofNat 9 || c = Char.ofNat 10 || c = Char.ofNat 13 ||
  c = Char.ofNat 11 || c = Char.ofNat 12

/-- Python `str.split()` with no argument: split on whitespace runs,
dropping empty pieces. -/
def splitWSGo : List Char → List Char → List String
  | [], acc => if acc.isEmpty then [] else [⟨acc.reverse⟩]
  | c :: rest, acc =>
    if isPySpace c then
      if acc.isEmpty then splitWSGo rest [] else ⟨acc.reverse⟩ :: splitWSGo rest []
    else splitWSGo rest (c :: acc)

def splitWS (l : List Char) : List String := splitWSGo l []

/-- Byte-buffer slice `buf[a:b]` (Python slicing clamps out-of-range). -/
def extractBytes (buf : List Nat) (a b : Nat) : List Nat := (buf.drop a).take (b - a)

/-- UTF-8 decoding, fuel-driven. Faithful to Python `bytes.decode('utf8')`
on valid UTF-8 input; invalid bytes are skipped (where Python would raise —
no claim exercises invalid input). -/
def utf8DecodeGo : Nat → List Nat → List Char
  | 0, _ => []
  | _ + 1, [] => []
  | fuel + 1, b :: rest =>
    if b < 128 then Char.ofNat b :: utf8DecodeGo fuel rest
    else if 192 ≤ b && b < 224 then
      match rest with
      | b2 :: rest2 =>
        if 128 ≤ b2 && b2 < 192 then
          Char.ofNat (((b - 192) <<< 6) ||| (b2 &&& 63)) :: utf8DecodeGo fuel rest2
        else utf8DecodeGo fuel rest
      | [] => []
    else if 224 ≤ b && b < 240 then
      match rest with
      | b2 :: b3 :: rest3 =>
        if (128 ≤ b2 && b2 < 192) && (128 ≤ b3 && b3 < 192) then
          Char.ofNat (((b - 224) <<< 12) ||| ((b2 &&& 63) <<< 6) ||| (b3 &&& 63)) ::
            utf8DecodeGo fuel rest3
        else utf8DecodeGo fuel rest
      | _ => []
    else if 240 ≤ b && b < 248 then
      match rest with
      | b2 :: b3 :: b4 :: rest4 =>
        if (128 ≤ b2 && b2 < 192) && (128 ≤ b3 && b3 < 192) && (128 ≤ b4 && b4 < 192) then
          Char.ofNat (((b - 240) <<< 18) ||| ((b2 &&& 63) <<< 12) |||
              ((b3 &&& 63) <<< 6) ||| (b4 &&& 63)) :: utf8DecodeGo fuel rest4
        else utf8DecodeGo fuel rest
      | _ => []
    else utf8DecodeGo fuel rest

/-- `bytes.decode('utf8')` as a Lean `String`. -/
def bytesToStr (l : List Nat) : String := ⟨utf8DecodeGo l.length l⟩

/-! ## Syntax tree (external tree-sitter provider)

The core only consumes `type`, `start_byte`, `end_byte` and `children`
of each node; trees are inputs to the embedding. -/

inductive TSNode where
  | mk (type : String) (start_byte end_byte : Nat) (children : List TSNode)
deriving Repr

def TSNode.type : TSNode → String
  | .mk t _ _ _ => t

def TSNode.start_byte : TSNode → Nat
  | .mk _ s _ _ => s

def TSNode.end_byte : TSNode → Nat
  | .mk _ _ e _ => e

def TSNode.children : TSNode → List TSNode
  | .mk _ _ _ cs => cs

/-! ## Language adapters (base.py, languages/csharp/adapter.py,
languages/javascript/adapter.py)

An adapter is the per-language policy record the engine consumes
(`get_string_node_types`, `get_comment_node_types`, ...). The parser itself
is the external tree provider and does not appear: engine functions take the
parse tree as an argument. -/

structure LanguageAdapter where
  name : String
  string_node_types : List String
  comment_node_types : List String
  import_node_types : List String
  exclude_patterns : List String
  preserve_suffixes : List String
  /-- `load_preserve_words()`: union of `preserve_language.json` and
  `preserve_custom.json`; neither file exists in the repository, so both
  shipped adapters load the empty set. -/
  preserve_words : List String
  should_remove_import : String → Bool
  preserve_import_ranges : List Nat → TSNode → List (Nat × Nat)

def csharpKeepNamespaces : List String :=
  ["system", "microsoft", "newtonsoft", "automapper",
   "serilog", "polly", "fluentvalidation", "mediatr"]

mutual
def csharpPreserveRangesNode (src : List Nat) : TSNode → List (Nat × Nat)
  | .mk t s e cs =>
    (if t = "using_directive" &&
        csharpKeepNamespaces.any
          (fun ns => strContains (lowerStr (bytesToStr (extractBytes src s e))) ns)
      then [(s, e)] else []) ++
    csharpPreserveRangesList src cs
def csharpPreserveRangesList (src : List Nat) : List TSNode → List (Nat × Nat)
  | [] => []
  | c :: cs => csharpPreserveRangesNode src c ++ csharpPreserveRangesList src cs
end

/-- `CSharpAdapter` (languages/csharp/adapter.py). -/
def CSharpAdapter : LanguageAdapter where
  name := "csharp"
  string_node_types := ["string_literal", "interpolated_string_text", "verbatim_string_literal"]
  comment_node_types := ["comment"]
  import_node_types := ["using_directive"]
  exclude_patterns := ["data", "value", "result", "error", "message", "model", "entity"]
  preserve_suffixes :=
    ["Async", "Controller", "Service", "Repository", "Factory", "Provider",
     "Handler", "Attribute", "Exception", "Builder", "Manager", "Helper",
     "Validator", "Converter", "Mapper", "Filter", "Middleware", "Options",
     "Settings", "Context", "Model", "ViewModel", "Dto", "Entity", "Configuration"]
  preserve_words := []
  should_remove_import := fun text =>
    ! csharpKeepNamespaces.any (fun ns => strContains (lowerStr text) ns)
  preserve_import_ranges := fun src tree => csharpPreserveRangesNode src tree

/-! ## Identifier classifier / word-mapping builder (minify.py 162-204)

Python dicts are modelled as insertion-ordered association lists: lookup
finds the first (unique) matching key, insertion appends at the end. -/

/-- A Python `dict[str, str]` in insertion order. -/
abbrev SMap := List (String × String)

namespace ObfuscationEngine

/-- `ObfuscationEngine.split_camelcase` first substitution:
`re.sub(r'([a-z])([A-Z])', r'\1 \2', name)` with `re.sub`'s left-to-right
non-overlapping consuming scan. -/
def camelSub1 : List Char → List Char
  | [] => []
  | [c] => [c]
  | c1 :: c2 :: rest =>
    if isLowerAZ c1 && isUpperAZ c2 then c1 :: ' ' :: c2 :: camelSub1 rest
    else c1 :: camelSub1 (c2 :: rest)

/-- Length of the uppercase run at the head of the list. -/
def upperRunLen : List Char → Nat
  | [] => 0
  | c :: rest => if isUpperAZ c then upperRunLen rest + 1 else 0

/-- `ObfuscationEngine.split_camelcase` second substitution:
`re.sub(r'([A-Z]+)([A-Z][a-z])', r'\1 \2', spaced)`. At a given position a
match exists iff the uppercase run there has length `m ≥ 2` and is followed
by a lowercase letter; greedy `[A-Z]+` with backtracking takes the first
`m - 1` uppers as group 1 and the last upper plus the lowercase as group 2,
and scanning resumes after the match. Fuel-driven for kernel reducibility. -/
def camelSub2Go : Nat → List Char → List Char
  | 0, l => l
  | _ + 1, [] => []
  | fuel + 1, c :: rest =>
    let l := c :: rest
    let m := upperRunLen l
    let lowNext : Bool := match l.drop m with
      | c2 :: _ => isLowerAZ c2
      | [] => false
    if 2 ≤ m && lowNext then
      l.take (m - 1) ++ ' ' :: (l.drop (m - 1)).take 2 ++ camelSub2Go fuel (l.drop (m + 1))
    else c :: camelSub2Go fuel rest

/-- `ObfuscationEngine.split_camelcase` (minify.py 162-166). The second
substitution scans the output of the first, so its fuel is that output's
length (every step of `camelSub2Go` consumes at least one character). -/
def split_camelcase (name : String) : List String :=
  splitWS (camelSub2Go (camelSub1 name.data).length (camelSub1 name.data))

/-- `ObfuscationEngine.should_preserve` (minify.py 168-170): membership of
the word in the preserve set. -/
def should_preserve (ad : LanguageAdapter) (word : String) : Bool :=
  ad.preserve_words.contains word

/-- First preserve suffix (declared order) with `name.endswith(suffix)` and
`len(name) > len(suffix)` (minify.py 182-186). -/
def findPreservedSuffix (ad : LanguageAdapter) (name : String) : Option String :=
  ad.preserve_suffixes.find? fun sfx =>
    sfx.data.isSuffixOf name.data && sfx.length < name.length

/-- One iteration of the sub-word loop of `obfuscate_composite`
(minify.py 191-197): preserve the part, or look it up, or insert a fresh
deterministic token for it (Python `word_mapping[part] = ...` appends a new
entry at the end of the dict). Returns the appended token and the updated
word mapping. -/
def map_subword (ad : LanguageAdapter) (wm : SMap) (part : String) : String × SMap :=
  if should_preserve ad part then (part, wm)
  else
    match wm.lookup part with
    | some tok => (tok, wm)
    | none => (deterministic_hash part, wm ++ [(part, deterministic_hash part)])

/-- The loop body of `obfuscate_composite` over `obfuscated_parts` and the
word mapping: append the mapped sub-word. -/
def subword_step (ad : LanguageAdapter) (acc : List String × SMap) (part : String) :
    List String × SMap :=
  let p := map_subword ad acc.2 part
  (acc.1 ++ [p.1], p.2)

/-- The camelCase-split-and-map part of `obfuscate_composite`
(minify.py 188-200): split into sub-words, map each through `map_subword`,
concatenate. -/
def obfuscate_body (ad : LanguageAdapter) (s : String) (wm : SMap) : String × SMap :=
  let r := (split_camelcase s).foldl (subword_step ad) (([] : List String), wm)
  (String.join r.1, r.2)

/-- `ObfuscationEngine.obfuscate_composite` (minify.py 172-204). -/
def obfuscate_composite (ad : LanguageAdapter) (name : String) (wm : SMap) :
    String × SMap :=
  if should_preserve ad name then (name, wm)
  else
    match findPreservedSuffix ad name with
    | some sfx =>
      let r := obfuscate_body ad ⟨name.data.take (name.length - sfx.length)⟩ wm
      (r.1 ++ sfx, r.2)
    | none => obfuscate_body ad name wm

/-- A sequence of `obfuscate_composite` calls threaded through the same
word-mapping store (the calls made by one or more runs sharing the store). -/
def run_composites (ad : LanguageAdapter) (names : List String) (wm : SMap) : SMap :=
  names.foldl (fun m n => (obfuscate_composite ad n m).2) wm

end ObfuscationEngine

/-! ## Range classifier & rewrite planner
(`ObfuscationEngine.obfuscate_code_section`, minify.py 206-315)

The tree-sitter parse (`self.adapter.get_parser().parse(...)`) is the
external tree provider; engine functions take the resulting tree as an
argument. -/

/-- One planned replacement `(start_byte, end_byte, replacement_bytes)`;
`none` replacement bytes mean deletion. -/
abbrev Replacement := Nat × Nat × Option (List Nat)

/-- First-occurrence-order deduplication. Python's `all_identifiers` is a
`set`; its iteration order is modelled as first-insertion order (real CPython
iterates string sets in a hash-seed-dependent order, which affects only the
insertion order of mapping entries, not any mapped value). -/
def dedupGo : List String → List String → List String
  | [], _ => []
  | x :: xs, seen =>
    if seen.contains x then dedupGo xs seen else x :: dedupGo xs (x :: seen)

def dedupFirst (l : List String) : List String := dedupGo l []

/-- Membership of `[s, e)` inside one of the listed ranges
(`is_in_string` / `is_in_preserve_range`, minify.py 239-249). -/
def inAnyRange (ranges : List (Nat × Nat)) (s e : Nat) : Bool :=
  ranges.any fun r => decide (r.1 ≤ s) && decide (e ≤ r.2)

def quoteCh : Char := Char.ofNat 34

def apostCh : Char := Char.ofNat 39

def backtickCh : Char := Char.ofNat 96

namespace ObfuscationEngine

mutual
/-- Pass 1 (`collect`, minify.py 219-229): pre-order collection of string
node ranges and identifier node texts (traversal also descends into string
and import nodes, as the Python code recurses unconditionally). -/
def collectNode (ad : LanguageAdapter) (src : List Nat) :
    TSNode → List (Nat × Nat) × List String
  | .mk t s e cs =>
    let rest := collectList ad src cs
    if ad.string_node_types.contains t then ((s, e) :: rest.1, rest.2)
    else if t = "identifier" then
      (rest.1, bytesToStr (extractBytes src s e) :: rest.2)
    else rest
def collectList (ad : LanguageAdapter) (src : List Nat) :
    List TSNode → List (Nat × Nat) × List String
  | [] => ([], [])
  | c :: cs =>
    let r1 := collectNode ad src c
    let r2 := collectList ad src cs
    (r1.1 ++ r2.1, r1.2 ++ r2.2)
end

/-- Classification of one newly seen identifier (minify.py 232-237): keep
already-mapped identifiers, pass excluded patterns through verbatim,
otherwise classify via `obfuscate_composite`. State is `(word_mapping,
identifier_mapping)`. -/
def build_id_step (ad : LanguageAdapter) (st : SMap × SMap) (name : String) :
    SMap × SMap :=
  match st.2.lookup name with
  | some _ => st
  | none =>
    if ad.exclude_patterns.contains (lowerStr name) then (st.1, st.2 ++ [(name, name)])
    else
      let r := obfuscate_composite ad name st.1
      (r.2, st.2 ++ [(name, r.1)])

def build_identifier_mapping (ad : LanguageAdapter) (names : List String)
    (wm im : SMap) : SMap × SMap :=
  names.foldl (build_id_step ad) (wm, im)

/-- The mutable state threaded through `collect_mods` (minify.py 251-299):
the modification list, the comment and string mappings, and
`comment_counter` (initialised to `len(comment_mapping)`). -/
structure ModState where
  mods : List Replacement
  comment_mapping : SMap
  string_mapping : SMap
  comment_counter : Nat
deriving Repr, DecidableEq

/-- The body of `collect_mods` for a single node with type `t` and range
`[s, e)` (minify.py 254-294), before recursing into children. -/
def collect_mods_step (ad : LanguageAdapter) (src : List Nat)
    (string_ranges preserve_ranges : List (Nat × Nat)) (im : SMap)
    (t : String) (s e : Nat) (st : ModState) : ModState :=
  if ad.import_node_types.contains t then
    let import_text := bytesToStr (extractBytes src s e)
    if ad.should_remove_import import_text then
      { st with mods := st.mods ++ [(s, e, none)] }
    else st
  else if ad.comment_node_types.contains t then
    let comment_text := bytesToStr (extractBytes src s e)
    let placeholder := "/*__CMT" ++ natToStr st.comment_counter ++ "__*/"
    { mods := st.mods ++ [(s, e, some (utf8 placeholder))],
      comment_mapping := st.comment_mapping ++ [(placeholder, comment_text)],
      string_mapping := st.string_mapping,
      comment_counter := st.comment_counter + 1 }
  else if ad.string_node_types.contains t then
    let string_text := bytesToStr (extractBytes src s e)
    match string_text.data with
    | [] => st
    | q :: restChars =>
      if q = backtickCh then st
      else if q = quoteCh || q = apostCh then
        let string_content : String := ⟨restChars.dropLast⟩
        let sm1 :=
          if string_content ≠ "" && (st.string_mapping.lookup string_content).isNone then
            st.string_mapping ++
              [(string_content, obfuscate_string_literal string_content)]
          else st.string_mapping
        match sm1.lookup string_content with
        | some obf_id =>
          { st with string_mapping := sm1,
                    mods := st.mods ++ [(s, e, some (utf8 obf_id))] }
        | none => { st with string_mapping := sm1 }
      else st
  else if t = "identifier" then
    if !inAnyRange string_ranges s e && !inAnyRange preserve_ranges s e then
      let old := bytesToStr (extractBytes src s e)
      match im.lookup old with
      | some nw =>
        if nw ≠ old then { st with mods := st.mods ++ [(s, e, some (utf8 nw))] }
        else st
      | none => st
    else st
  else st

mutual
/-- `collect_mods` (minify.py 254-299): apply the step at each node in
pre-order, recursing into all children. -/
def collect_mods_node (ad : LanguageAdapter) (src : List Nat)
    (string_ranges preserve_ranges : List (Nat × Nat)) (im : SMap) :
    TSNode → ModState → ModState
  | .mk t s e cs, st =>
    collect_mods_list ad src string_ranges preserve_ranges im cs
      (collect_mods_step ad src string_ranges preserve_ranges im t s e st)
def collect_mods_list (ad : LanguageAdapter) (src : List Nat)
    (string_ranges preserve_ranges : List (Nat × Nat)) (im : SMap) :
    List TSNode → ModState → ModState
  | [], st => st
  | c :: cs, st =>
    collect_mods_list ad src string_ranges preserve_ranges im cs
      (collect_mods_node ad src string_ranges preserve_ranges im c st)
end

/-- Stable insertion into a start-byte-sorted list. -/
def insertSortedRepl (m : Replacement) : List Replacement → List Replacement
  | [] => [m]
  | x :: xs => if m.1 ≤ x.1 then m :: x :: xs else x :: insertSortedRepl m xs

/-- `modifications.sort(key=lambda x: x[0])` (minify.py 300): Python's sort
is stable; stable insertion sort produces the same list. -/
def sortMods (l : List Replacement) : List Replacement := l.foldr insertSortedRepl []

/-- Application of the sorted modification list (minify.py 302-313): copy
untouched bytes since the cursor, splice each replacement, advance the
cursor past the replaced range, append the tail. -/
def apply_mods (src : List Nat) : List Replacement → Nat → List Nat
  | [], last_pos => src.drop last_pos
  | (s, e, r) :: rest, last_pos =>
    (if last_pos < s then extractBytes src last_pos s else []) ++
      (match r with | some bs => bs | none => []) ++
      apply_mods src rest e

/-- Everything `obfuscate_code_section` computes before sorting and applying
the modification list. -/
structure RewritePlan where
  mods : List Replacement
  word_mapping : SMap
  identifier_mapping : SMap
  comment_mapping : SMap
  string_mapping : SMap
deriving Repr, DecidableEq

def rewrite_plan (ad : LanguageAdapter) (source_code : String) (tree : TSNode)
    (wm im cm sm : SMap) : RewritePlan :=
  let source_bytes := utf8 source_code
  let collected := collectNode ad source_bytes tree
  let string_ranges := collected.1
  let all_identifiers := dedupFirst collected.2
  let preserve_ranges := ad.preserve_import_ranges source_bytes tree
  let bm := build_identifier_mapping ad all_identifiers wm im
  let st := collect_mods_node ad source_bytes string_ranges preserve_ranges bm.2 tree
    ⟨[], cm, sm, cm.length⟩
  ⟨st.mods, bm.1, bm.2, st.comment_mapping, st.string_mapping⟩

/-- The result of `obfuscate_code_section`: the rewritten decoded text plus
the four updated mappings (the Python method returns the text and
`string_mapping` and mutates the other dicts in place). -/
structure CodeSectionResult where
  output : String
  word_mapping : SMap
  identifier_mapping : SMap
  comment_mapping : SMap
  string_mapping : SMap
deriving Repr, DecidableEq

/-- `ObfuscationEngine.obfuscate_code_section` (minify.py 206-315), with the
parse tree supplied by the external provider. -/
def obfuscate_code_section (ad : LanguageAdapter) (source_code : String)
    (tree : TSNode) (wm im cm sm : SMap) : CodeSectionResult :=
  let source_bytes := utf8 source_code
  let p := rewrite_plan ad source_code tree wm im cm sm
  let mods := sortMods p.mods
  ⟨bytesToStr (apply_mods source_bytes mods 0),
    p.word_mapping, p.identifier_mapping, p.comment_mapping, p.string_mapping⟩

end ObfuscationEngine

/-! ## Deobfuscation engine (unminify.py 31-96) -/

/-- Python `str.replace(old, new)`: replace all non-overlapping occurrences
left to right (the replacement text is not rescanned). Fuel-driven scan;
patterns used by the engine are never empty. -/
def replaceAllGo (p q : List Char) : Nat → List Char → List Char
  | 0, s => s
  | _ + 1, [] => []
  | fuel + 1, c :: rest =>
    if !p.isEmpty && p.isPrefixOf (c :: rest) then
      q ++ replaceAllGo p q fuel ((c :: rest).drop p.length)
    else c :: replaceAllGo p q fuel rest

/-- Python `result.replace(old, new)` on strings. -/
def strReplace (s old nw : String) : String :=
  ⟨replaceAllGo old.data nw.data s.data.length s.data⟩

/-- Regex word-constituent class `\w = [A-Za-z0-9_]` (ASCII; the tokens and
identifiers the engine substitutes are ASCII). -/
def isWordChar (c : Char) : Bool :=
  isLowerAZ c || isUpperAZ c || ('0' ≤ c && c ≤ '9') || c = '_'

/-- `\b` between two (optional) characters: exactly one side is a word
constituent (absent characters count as non-word). -/
def wbBoundary (a b : Option Char) : Bool :=
  (match a with | some c => isWordChar c | none => false) !=
    (match b with | some c => isWordChar c | none => false)

/-- `re.sub(r'\b' + re.escape(pat) + r'\b', repl, text)`: scan the original
text left to right; at each position the escaped pattern must match
literally with `\b` on both sides; matches are consumed, the replacement is
not rescanned, and subsequent boundary checks look at the original
characters. -/
def subWBGo (p q : List Char) : Nat → Option Char → List Char → List Char
  | 0, _, s => s
  | _ + 1, _, [] => []
  | fuel + 1, prev, c :: rest =>
    if !p.isEmpty && p.isPrefixOf (c :: rest) &&
        wbBoundary prev (some c) &&
        wbBoundary p.getLast? ((c :: rest).drop p.length).head? then
      q ++ subWBGo p q fuel p.getLast? ((c :: rest).drop p.length)
    else c :: subWBGo p q fuel (some c) rest

def reSubWB (text pat repl : String) : String :=
  ⟨subWBGo pat.data repl.data text.data.length none text.data⟩

/-- Python dict assignment `d[k] = v`: update in place if the key exists
(keeping its position), else append. -/
def updateOrAppend : SMap → String → String → SMap
  | [], k, v => [(k, v)]
  | (a, b) :: rest, k, v =>
    if a = k then (a, v) :: rest else (a, b) :: updateOrAppend rest k v

/-- `{v: k for k, v in m.items() if v != k}` (later duplicates of a value
overwrite earlier ones, keeping the first position). -/
def reverse_changed (m : SMap) : SMap :=
  m.foldl (fun acc kv => if kv.2 ≠ kv.1 then updateOrAppend acc kv.2 kv.1 else acc) []

/-- `{v: k for k, v in m.items()}`. -/
def reverse_all (m : SMap) : SMap :=
  m.foldl (fun acc kv => updateOrAppend acc kv.2 kv.1) []

/-- Stable insertion for descending key length. -/
def insertByLenDesc (x : String × String) :
    List (String × String) → List (String × String)
  | [] => [x]
  | y :: ys => if y.1.length ≤ x.1.length then x :: y :: ys else y :: insertByLenDesc x ys

/-- `sorted(m.items(), key=lambda x: len(x[0]), reverse=True)` — Python's
sort is stable, matched by stable insertion sort. -/
def sortByKeyLenDesc (l : List (String × String)) : List (String × String) :=
  l.foldr insertByLenDesc []

def quoteStr : String := ⟨[quoteCh]⟩

/-- Python `s.strip('"')`. -/
def stripQuotes (s : String) : String :=
  ⟨((s.data.dropWhile (· = quoteCh)).reverse.dropWhile (· = quoteCh)).reverse⟩

/-- `deobfuscate_text` (unminify.py 31-96): four ordered restoration passes,
each sorting its entries by key length descending. In step 2 the Python code
passes `f'"{orig_string}"'` as a regex replacement template; none of the
stored strings contain backslashes in any property considered here, so the
template is modelled as literal text. -/
def deobfuscate_text (obfuscated_code : String)
    (word_mapping identifier_mapping comment_mapping string_mapping : SMap) :
    String :=
  -- Step 1: restore comments (literal replace of each placeholder,
  -- original text plus a newline)
  let result1 :=
    if comment_mapping.isEmpty then obfuscated_code
    else
      (sortByKeyLenDesc comment_mapping).foldl
        (fun res kv =>
          let placeholder :=
            if ("/*" : String).data.isPrefixOf kv.1.data then kv.1
            else "/*" ++ kv.1 ++ "*/"
          strReplace res placeholder (kv.2 ++ "\n"))
        obfuscated_code
  -- Step 2: restore string literals (whole-word, re-wrapped in quotes)
  let result2 :=
    if string_mapping.isEmpty then result1
    else
      (sortByKeyLenDesc (reverse_all string_mapping)).foldl
        (fun res kv => reSubWB res kv.1 (quoteStr ++ kv.2 ++ quoteStr)) result1
  -- Step 3: restore identifiers (quoted legacy entries, then unquoted
  -- hashes, then regular identifiers)
  let result3 :=
    if identifier_mapping.isEmpty then result2
    else
      let reverse_identifiers := reverse_changed identifier_mapping
      let string_mappings := reverse_identifiers.filter fun kv =>
        quoteStr.data.isPrefixOf kv.1.data && quoteStr.data.isSuffixOf kv.1.data
      let unquoted_string_hashes := string_mappings.foldl
        (fun acc kv => updateOrAppend acc (stripQuotes kv.1) (stripQuotes kv.2)) []
      let regular_mappings := reverse_identifiers.filter fun kv =>
        !(quoteStr.data.isPrefixOf kv.1.data && quoteStr.data.isSuffixOf kv.1.data)
      let r3a := (sortByKeyLenDesc string_mappings).foldl
        (fun res kv => strReplace res kv.1 kv.2) result2
      let r3b := (sortByKeyLenDesc unquoted_string_hashes).foldl
        (fun res kv => reSubWB res kv.1 kv.2) r3a
      (sortByKeyLenDesc regular_mappings).foldl
        (fun res kv => reSubWB res kv.1 kv.2) r3b
  -- Step 4: restore remaining bare word tokens
  if word_mapping.isEmpty then result3
  else
    (sortByKeyLenDesc (reverse_changed word_mapping)).foldl
      (fun res kv => reSubWB res kv.1 kv.2) result3

/-! ## Mapping store (minify.py 377-415) -/

namespace ObfuscationEngine

/-- Abstraction of the persisted `mapping.json` file as seen by
`load_existing_mapping`: absent, or present with a parse outcome — the
successfully decoded four mappings, or the textual error `json.load` /
`open` raised. -/
inductive StoreState where
  | absent
  | present (parsed : Except String (SMap × SMap × SMap × SMap))

/-- `ObfuscationEngine.load_existing_mapping` (minify.py 377-391): the four
mappings from the store; absent file gives four empty mappings; a read or
parse failure is caught inside the method (only printed) and four empty
mappings are returned. -/
def load_existing_mapping : StoreState → SMap × SMap × SMap × SMap
  | .absent => ([], [], [], [])
  | .present (.ok d) => d
  | .present (.error _) => ([], [], [], [])

/-- The dictionary written by `save_mapping` (minify.py 396-412).
`created_at` is `datetime.now().isoformat()` — an input here, since it is
read from the wall clock. -/
structure SaveData where
  created_at : String
  language : String
  total_identifiers : Nat
  obfuscated_count : Nat
  comment_count : Nat
  string_count : Nat
  word_mapping : SMap
  identifier_mapping : SMap
  comment_mapping : SMap
  string_mapping : SMap
  reverse_map : SMap
  reverse_string_map : SMap
deriving Repr, DecidableEq

def save_mapping_data (ad : LanguageAdapter) (wm im cm sm : SMap)
    (now : String) : SaveData :=
  let reverse_map := reverse_changed im
  let reverse_string_map := reverse_all sm
  ⟨now, ad.name, im.length, reverse_map.length, cm.length, sm.length,
    wm, im, cm, sm, reverse_map, reverse_string_map⟩

end ObfuscationEngine

/-- JSON string escaping as `json.dump(..., ensure_ascii=False)` performs
it: backslash, double quote and control characters escaped, everything else
verbatim. -/
def jsonEscapeChar (c : Char) : List Char :=
  if c = quoteCh then ['\\', quoteCh]
  else if c = '\\' then ['\\', '\\']
  else if c = Char.ofNat 10 then ['\\', 'n']
  else if c = Char.ofNat 13 then ['\\', 'r']
  else if c = Char.ofNat 9 then ['\\', 't']
  else if c = Char.ofNat 8 then ['\\', 'b']
  else if c = Char.ofNat 12 then ['\\', 'f']
  else if c.toNat < 32 then
    ['\\', 'u', '0', '0', Nat.digitChar (c.toNat / 16), Nat.digitChar (c.toNat % 16)]
  else [c]

def jsonStr (s : String) : String :=
  quoteStr ++ ⟨s.data.flatMap jsonEscapeChar⟩ ++ quoteStr

/-- Join with a separator (what `json.dump` does between object members).
-/
def joinSep (sep : String) : List String → String
  | [] => ""
  | [x] => x
  | x :: y :: rest => x ++ sep ++ joinSep sep (y :: rest)

def lbrace : String := "\x7b"

def rbrace : String := "\x7d"

/-- A nested dict with `json.dump(..., indent=2)` at nesting depth 1. -/
def jsonDict (m : SMap) : String :=
  if m.isEmpty then lbrace ++ rbrace
  else
    lbrace ++ "\n" ++
      joinSep ",\n"
        (m.map fun kv => "    " ++ jsonStr kv.1 ++ ": " ++ jsonStr kv.2) ++
      "\n  " ++ rbrace

namespace ObfuscationEngine

/-- The exact text `json.dump(save_data, f, indent=2, ensure_ascii=False)`
writes to `mapping.json` (minify.py 414-415). -/
def serialize_save_data (d : SaveData) : String :=
  lbrace ++ "\n" ++
    joinSep ",\n"
      ["  " ++ jsonStr "created_at" ++ ": " ++ jsonStr d.created_at,
       "  " ++ jsonStr "language" ++ ": " ++ jsonStr d.language,
       "  " ++ jsonStr "total_identifiers" ++ ": " ++ natToStr d.total_identifiers,
       "  " ++ jsonStr "obfuscated_count" ++ ": " ++ natToStr d.obfuscated_count,
       "  " ++ jsonStr "comment_count" ++ ": " ++ natToStr d.comment_count,
       "  " ++ jsonStr "string_count" ++ ": " ++ natToStr d.string_count,
       "  " ++ jsonStr "word_mapping" ++ ": " ++ jsonDict d.word_mapping,
       "  " ++ jsonStr "identifier_mapping" ++ ": " ++ jsonDict d.identifier_mapping,
       "  " ++ jsonStr "comment_mapping" ++ ": " ++ jsonDict d.comment_mapping,
       "  " ++ jsonStr "string_mapping" ++ ": " ++ jsonDict d.string_mapping,
       "  " ++ jsonStr "reverse_map" ++ ": " ++ jsonDict d.reverse_map,
       "  " ++ jsonStr "reverse_string_map" ++ ": " ++ jsonDict d.reverse_string_map] ++
    "\n" ++ rbrace

/-- `save_mapping` composed with serialization: the bytes persisted for the
four mappings at time `now`. -/
def save_mapping_file (ad : LanguageAdapter) (wm im cm sm : SMap)
    (now : String) : String :=
  serialize_save_data (save_mapping_data ad wm im cm sm now)

end ObfuscationEngine

/-- The serialized file up to (and excluding) the created_at value. -/
def savePre : String := lbrace ++ "\n" ++ "  " ++ jsonStr "created_at" ++ ": "

namespace ObfuscationEngine

/-- The serialized file after the created_at value: independent of the
timestamp. -/
def save_tail (d : SaveData) : String :=
  ",\n" ++
    joinSep ",\n"
      ["  " ++ jsonStr "language" ++ ": " ++ jsonStr d.language,
       "  " ++ jsonStr "total_identifiers" ++ ": " ++ natToStr d.total_identifiers,
       "  " ++ jsonStr "obfuscated_count" ++ ": " ++ natToStr d.obfuscated_count,
       "  " ++ jsonStr "comment_count" ++ ": " ++ natToStr d.comment_count,
       "  " ++ jsonStr "string_count" ++ ": " ++ natToStr d.string_count,
       "  " ++ jsonStr "word_mapping" ++ ": " ++ jsonDict d.word_mapping,
       "  " ++ jsonStr "identifier_mapping" ++ ": " ++ jsonDict d.identifier_mapping,
       "  " ++ jsonStr "comment_mapping" ++ ": " ++ jsonDict d.comment_mapping,
       "  " ++ jsonStr "string_mapping" ++ ": " ++ jsonDict d.string_mapping,
       "  " ++ jsonStr "reverse_map" ++ ": " ++ jsonDict d.reverse_map,
       "  " ++ jsonStr "reverse_string_map" ++ ": " ++ jsonDict d.reverse_string_map] ++
    "\n" ++ rbrace

end ObfuscationEngine

/-! ## Replacement-set properties (data model of §3, for claims about the
rewrite planner) -/

/-- Ascending order of `start_byte` along the list. -/
def sortedByStart : List Replacement → Bool
  | [] => true
  | [_] => true
  | a :: b :: rest => decide (a.1 ≤ b.1) && sortedByStart (b :: rest)

/-- Two half-open byte ranges intersect. -/
def replOverlap (a b : Replacement) : Bool :=
  decide (a.1 < b.2.1) && decide (b.1 < a.2.1)

def pairwiseNonOverlapping : List Replacement → Bool
  | [] => true
  | m :: rest => rest.all (fun x => !replOverlap m x) && pairwiseNonOverlapping rest

/-- Well-formed application order starting at cursor `last`: each range
starts at or after the cursor, is non-empty-ordered (`s ≤ e`), and the
cursor moves to its end; the final cursor is within the source. This is
what "sorted ascending and pairwise non-overlapping in-bounds ranges"
gives the application loop. -/
def chainOK (src : List Nat) : Nat → List Replacement → Bool
  | last, [] => decide (last ≤ src.length)
  | last, (s, e, _) :: rest =>
    decide (last ≤ s) && decide (s ≤ e) && chainOK src e rest

/-- The bytes a replacement splices in (nothing, for a deletion). -/
def replText (m : Replacement) : List Nat := m.2.2.getD []

/-- The untouched gaps of the source around a replacement list, starting at
cursor `last` (one more gap than there are replacements). -/
def gapSegments (src : List Nat) : List Replacement → Nat → List (List Nat)
  | [], last => [src.drop last]
  | (s, e, _) :: rest, last => extractBytes src last s :: gapSegments src rest e

/-- Interleave gaps and replacement texts: `g0 r1 g1 r2 ... rn gn`. -/
def joinInterleave : List (List Nat) → List (List Nat) → List Nat
  | [], _ => []
  | g :: _, [] => g
  | g :: gs, r :: rs => g ++ r ++ joinInterleave gs rs

/-- Byte index `i` lies inside some replacement range. -/
def coveredIdx (ms : List Replacement) (i : Nat) : Bool :=
  ms.any fun m => decide (m.1 ≤ i) && decide (i < m.2.1)

/-- The source bytes at indices not covered by any replacement, in index
order. -/
def uncoveredBytes (src : List Nat) (ms : List Replacement) : List Nat :=
  ((List.range src.length).filter fun i => !coveredIdx ms i).map fun i => src.getD i 0

/-! ## Word-run decomposition (for reasoning about whole-word restoration)

`deobfuscate_text`'s identifier and word passes substitute whole-word
(`\b`-delimited) alphanumeric tokens. A text decomposes uniquely into
maximal runs of word constituents and runs of separators; a whole-word pass
with a word-only pattern and replacement acts on that decomposition
chunk-wise. -/

/-- Maximal same-class (word/non-word) runs of a character list, in order;
fuel-driven. -/
def wordChunksGo : Nat → List Char → List (List Char)
  | 0, _ => []
  | _ + 1, [] => []
  | fuel + 1, c :: rest =>
    ((c :: rest).takeWhile fun x => isWordChar x == isWordChar c) ::
      wordChunksGo fuel ((c :: rest).dropWhile fun x => isWordChar x == isWordChar c)

def wordChunks (l : List Char) : List (List Char) := wordChunksGo l.length l

/-- The class of a chunk: `true` for a word-constituent run. -/
def chunkClass : List Char → Bool
  | [] => false
  | c :: _ => isWordChar c

/-- A chunk is nonempty and of a single class. -/
def uniformChunk : List Char → Bool
  | [] => false
  | c :: rest => rest.all fun x => isWordChar x == isWordChar c

/-- A valid chunk decomposition after a character `prev`: each chunk
nonempty and uniform, adjacent chunks (and `prev`) of alternating class. -/
def chunksOK : Option Char → List (List Char) → Bool
  | _, [] => true
  | prev, ch :: rest =>
    uniformChunk ch &&
      (match prev with
       | none => true
       | some pc => isWordChar pc != chunkClass ch) &&
      chunksOK ch.getLast? rest

/-- One whole-word restoration pass acting on a single run. -/
def runStep (ch : List Char) (pr : String × String) : List Char :=
  if ch == pr.1.data then pr.2.data else ch

/-- The composed per-run effect of a list of whole-word restoration passes
applied in order. -/
def runFold (L : List (String × String)) (ch : List Char) : List Char :=
  L.foldl runStep ch

/-- Pattern and replacement are nonempty word-constituent strings (true of
every token and identifier the engine substitutes). -/
def wordPairOK (pr : String × String) : Bool :=
  !pr.1.data.isEmpty && pr.1.data.all isWordChar &&
    !pr.2.data.isEmpty && pr.2.data.all isWordChar

/-- Key is wrapped in double quotes (the legacy quoted-entry test of
deobfuscation step 3). -/
def quotedKey (kv : String × String) : Bool :=
  quoteStr.data.isPrefixOf kv.1.data && quoteStr.data.isSuffixOf kv.1.data

/-- The combined whole-word restoration pass list of `deobfuscate_text`
steps 3c and 4: identifier entries then word entries, each sorted by key
length descending. -/
def restorePasses (word_mapping identifier_mapping : SMap) : List (String × String) :=
  sortByKeyLenDesc (reverse_changed identifier_mapping) ++
    sortByKeyLenDesc (reverse_changed word_mapping)

/-- The character preceding the scan position after emitting `l` (the last
character of `l`, or the previous one if `l` is empty). -/
def prevAfter (prev : Option Char) : List Char → Option Char
  | [] => prev
  | c :: cs => prevAfter (some c) cs

/-- No occurrence of `p` starts at any position of `s`. -/
def noOcc (p s : List Char) : Bool :=
  (List.range s.length).all fun i => !(p.isPrefixOf (s.drop i))

/-! ## Iteration-order-parameterised pipeline

`all_identifiers` (minify.py 231) is a Python `set`; CPython iterates string
sets in a hash-seed-dependent order that varies between interpreter
processes. `dedupFirst` above fixes one order; the variants below take the
iteration order as an explicit parameter, so that run-to-run properties can
be stated over every order the interpreter may produce. A valid order
enumerates the members of the collected identifier list exactly once. -/

/-- Two lists have the same members. -/
def sameMembers (l1 l2 : List String) : Bool :=
  l1.all (fun x => l2.contains x) && l2.all (fun x => l1.contains x)

mutual
/-- Node count of a tree (for induction over the mutual traversals). -/
def sizeN : TSNode → Nat
  | .mk _ _ _ cs => 1 + sizeL cs
def sizeL : List TSNode → Nat
  | [] => 0
  | c :: cs => sizeN c + sizeL cs
end

namespace ObfuscationEngine

/-- `rewrite_plan` with the identifier-set iteration order as a parameter
(`rewrite_plan` itself is the instance at first-insertion order). -/
def rewrite_plan_ord (ad : LanguageAdapter) (source_code : String) (tree : TSNode)
    (wm im cm sm : SMap) (order : List String) : RewritePlan :=
  let source_bytes := utf8 source_code
  let collected := collectNode ad source_bytes tree
  let string_ranges := collected.1
  let preserve_ranges := ad.preserve_import_ranges source_bytes tree
  let bm := build_identifier_mapping ad order wm im
  let st := collect_mods_node ad source_bytes string_ranges preserve_ranges bm.2 tree
    ⟨[], cm, sm, cm.length⟩
  ⟨st.mods, bm.1, bm.2, st.comment_mapping, st.string_mapping⟩

/-- `obfuscate_code_section` with the identifier-set iteration order as a
parameter. -/
def obfuscate_code_section_ord (ad : LanguageAdapter) (source_code : String)
    (tree : TSNode) (wm im cm sm : SMap) (order : List String) : CodeSectionResult :=
  let source_bytes := utf8 source_code
  let p := rewrite_plan_ord ad source_code tree wm im cm sm order
  let mods := sortMods p.mods
  ⟨bytesToStr (apply_mods source_bytes mods 0),
    p.word_mapping, p.identifier_mapping, p.comment_mapping, p.string_mapping⟩

/-- The token `map_subword` appends for a part, as a pure function of the
part — its value whenever every stored word token is the deterministic hash
of its key. -/
def pureSubTok (ad : LanguageAdapter) (part : String) : String :=
  if should_preserve ad part then part else deterministic_hash part

/-- The composite token as a pure function of the name (same proviso). -/
def pureTok (ad : LanguageAdapter) (name : String) : String :=
  if should_preserve ad name then name
  else
    match findPreservedSuffix ad name with
    | some sfx =>
      String.join ((split_camelcase ⟨name.data.take (name.length - sfx.length)⟩).map
        (pureSubTok ad)) ++ sfx
    | none => String.join ((split_camelcase name).map (pureSubTok ad))

/-- The sub-words `obfuscate_body` inserts into the word mapping when
applied to `s` (the non-preserved camelCase parts). -/
def bodyParts (ad : LanguageAdapter) (s : String) : List String :=
  (split_camelcase s).filter (fun p => !should_preserve ad p)

/-- The sub-words `obfuscate_composite` inserts for a name. -/
def insParts (ad : LanguageAdapter) (name : String) : List String :=
  if should_preserve ad name then []
  else
    match findPreservedSuffix ad name with
    | some sfx => bodyParts ad ⟨name.data.take (name.length - sfx.length)⟩
    | none => bodyParts ad name

/-- The identifier token recorded by `build_id_step` for a fresh name, as a
pure function of the name. -/
def pureIdTok (ad : LanguageAdapter) (name : String) : String :=
  if ad.exclude_patterns.contains (lowerStr name) then name else pureTok ad name

/-- The sub-words `build_id_step` inserts for a fresh name. -/
def idParts (ad : LanguageAdapter) (name : String) : List String :=
  if ad.exclude_patterns.contains (lowerStr name) then [] else insParts ad name

/-- Every stored word token is the deterministic hash of its key — true of
the empty store and preserved by every insertion the engine makes. -/
def wmCanon (wm : SMap) : Prop :=
  ∀ p v, wm.lookup p = some v → v = deterministic_hash p

end ObfuscationEngine

/-! ### Decimal length bound -/

theorem decDigits_length_le :
    ∀ fuel n k, n ≤ fuel → 0 < k → n < 10 ^ k → (decDigits fuel n).length ≤ k := by
  intro fuel
  induction fuel with
  | zero =>
    intro n k hn hk _
    have hn0 : n = 0 := by omega
    subst hn0
    simp [decDigits]
  | succ fuel ih =>
    intro n k hn hk hlt
    by_cases h10 : n < 10
    · simp only [decDigits, if_pos h10, List.length_cons, List.length_nil]
      omega
    · have hk2 : 2 ≤ k := by
        by_contra h
        have hk1 : k = 1 := by omega
        subst hk1
        simp at hlt
        omega
      have hdiv : n / 10 < 10 ^ (k - 1) := by
        rw [Nat.div_lt_iff_lt_mul (by norm_num)]
        calc n < 10 ^ k := hlt
          _ = 10 ^ (k - 1) * 10 := by
              rw [← pow_succ]
              congr 1
              omega
      have hfuel : n / 10 ≤ fuel := by
        have : n / 10 < n := Nat.div_lt_self (by omega) (by norm_num)
        omega
      have hrec := ih (n / 10) (k - 1) hfuel (by omega) hdiv
      simp only [decDigits, if_neg h10, List.length_append, List.length_cons,
        List.length_nil]
      omega

theorem natToStr_length_le (n k : Nat) (hk : 0 < k) (h : n < 10 ^ k) :
    (natToStr n).length ≤ k := by
  have := decDigits_length_le (n + 1) n k (by omega) hk h
  simpa [natToStr, String.length] using this

/-! ### C10 / C6: token shape, prefixes, and length bounds -/

set_option maxRecDepth 1000000

theorem getD_mem_of_lt (l : List String) (i : Nat) (h : i < l.length) :
    l.getD i "" ∈ l := by
  rw [List.getD_eq_getElem l "" h]
  exact List.getElem_mem h

theorem getD_length_one (l : List String) (hl : ∀ s ∈ l, s.length = 1)
    (i : Nat) (hi : i < l.length) : (l.getD i "").length = 1 :=
  hl _ (getD_mem_of_lt l i hi)

/-- C10: for every input text, the word token's numeric part is strictly less
than 9999 and the string-content token's numeric part is strictly less than
99999, so the word token has at most 5 characters and the string token at
most 6. -/
theorem token_length_bounds (text : String) :
    ∃ p n, p ∈ (["T", "C", "D", "E"] : List String) ∧
      ObfuscationEngine.deterministic_hash text = p ++ natToStr n ∧
      n < 9999 ∧ (ObfuscationEngine.deterministic_hash text).length ≤ 5 ∧
      ∃ q m, q ∈ (["E", "S", "H", "L"] : List String) ∧
        ObfuscationEngine.obfuscate_string_literal text = q ++ natToStr m ∧
        m < 99999 ∧ (ObfuscationEngine.obfuscate_string_literal text).length ≤ 6 := by
  have hlen1 : ∀ s ∈ (["T", "C", "D", "E"] : List String), s.length = 1 := by decide
  have hlen2 : ∀ s ∈ (["E", "S", "H", "L"] : List String), s.length = 1 := by decide
  refine ⟨(["T", "C", "D", "E"] : List String).getD
      (md5String text % (["T", "C", "D", "E"] : List String).length) "",
    md5String text % 9999,
    getD_mem_of_lt _ _ (Nat.mod_lt _ (by decide)),
    rfl, Nat.mod_lt _ (by norm_num), ?_,
    (["E", "S", "H", "L"] : List String).getD
      (md5String ("str_" ++ text) % (["E", "S", "H", "L"] : List String).length) "",
    md5String ("str_" ++ text) % 99999,
    getD_mem_of_lt _ _ (Nat.mod_lt _ (by decide)),
    rfl, Nat.mod_lt _ (by norm_num), ?_⟩
  · show ((["T", "C", "D", "E"] : List String).getD
        (md5String text % (["T", "C", "D", "E"] : List String).length) "" ++
        natToStr (md5String text % 9999)).length ≤ 5
    rw [String.length_append,
      getD_length_one _ hlen1 _ (Nat.mod_lt _ (by decide))]
    have hn : (natToStr (md5String text % 9999)).length ≤ 4 :=
      natToStr_length_le _ 4 (by norm_num)
        (lt_trans (Nat.mod_lt _ (by norm_num)) (by norm_num))
    omega
  · show ((["E", "S", "H", "L"] : List String).getD
        (md5String ("str_" ++ text) % (["E", "S", "H", "L"] : List String).length) "" ++
        natToStr (md5String ("str_" ++ text) % 99999)).length ≤ 6
    rw [String.length_append,
      getD_length_one _ hlen2 _ (Nat.mod_lt _ (by decide))]
    have hn : (natToStr (md5String ("str_" ++ text) % 99999)).length ≤ 5 :=
      natToStr_length_le _ 5 (by norm_num)
        (lt_trans (Nat.mod_lt _ (by norm_num)) (by norm_num))
    omega

/-- C6 (counterexample): the word-token prefix alphabet `{T,C,D,E}` and the
string-token prefix alphabet `{E,S,H,L}` are not disjoint: the word `ac` gets
token `E4548` and the string content `ab` gets token `E37315`, both with
prefix letter `E`. -/
theorem token_prefix_overlap_counterexample :
    ObfuscationEngine.deterministic_hash "ac" = "E4548" ∧
    ObfuscationEngine.obfuscate_string_literal "ab" = "E37315" ∧
    (ObfuscationEngine.deterministic_hash "ac").data.head? = some 'E' ∧
    (ObfuscationEngine.obfuscate_string_literal "ab").data.head? = some 'E' := by
  refine ⟨by decide, by decide, by decide, by decide⟩

/-- C6 (amended): every generated token is a pure function of its input text
of the form one-letter prefix followed by a decimal number; word-token
prefixes are drawn from `{T,C,D,E}` and string-token prefixes from
`{E,S,H,L}` — the two alphabets overlap at `E` rather than being disjoint. -/
theorem token_shape_amended (text : String) :
    (∃ n, n < 9999 ∧ ∃ p ∈ (["T", "C", "D", "E"] : List String),
      ObfuscationEngine.deterministic_hash text = p ++ natToStr n) ∧
    (∃ m, m < 99999 ∧ ∃ q ∈ (["E", "S", "H", "L"] : List String),
      ObfuscationEngine.obfuscate_string_literal text = q ++ natToStr m) ∧
    "E" ∈ (["T", "C", "D", "E"] : List String) ∧
    "E" ∈ (["E", "S", "H", "L"] : List String) := by
  refine ⟨⟨md5String text % 9999, Nat.mod_lt _ (by norm_num),
      (["T", "C", "D", "E"] : List String).getD
        (md5String text % (["T", "C", "D", "E"] : List String).length) "",
      getD_mem_of_lt _ _ (Nat.mod_lt _ (by decide)), rfl⟩,
    ⟨md5String ("str_" ++ text) % 99999, Nat.mod_lt _ (by norm_num),
      (["E", "S", "H", "L"] : List String).getD
        (md5String ("str_" ++ text) % (["E", "S", "H", "L"] : List String).length) "",
      getD_mem_of_lt _ _ (Nat.mod_lt _ (by decide)), rfl⟩,
    by decide, by decide⟩

/-! ### C4 / C5: word-mapping stability and preservation rules -/

theorem lookup_append_some (l1 l2 : SMap) (k v : String)
    (h : l1.lookup k = some v) : (l1 ++ l2).lookup k = some v := by
  induction l1 with
  | nil => simp [List.lookup] at h
  | cons p tl ih =>
    obtain ⟨a, b⟩ := p
    by_cases hk : k = a
    · subst hk
      simpa [List.lookup] using h
    · rw [List.cons_append]
      simp only [List.lookup, beq_false_of_ne hk] at h ⊢
      exact ih h

theorem lookup_append_none (l1 l2 : SMap) (k : String)
    (h : l1.lookup k = none) : (l1 ++ l2).lookup k = l2.lookup k := by
  induction l1 with
  | nil => simp
  | cons p tl ih =>
    obtain ⟨a, b⟩ := p
    by_cases hk : k = a
    · subst hk
      simp [List.lookup] at h
    · rw [List.cons_append]
      simp only [List.lookup, beq_false_of_ne hk] at h ⊢
      exact ih h

theorem map_subword_preserves_lookup (ad : LanguageAdapter) (wm : SMap)
    (part k v : String) (h : wm.lookup k = some v) :
    ((ObfuscationEngine.map_subword ad wm part).2).lookup k = some v := by
  unfold ObfuscationEngine.map_subword
  by_cases hp : ObfuscationEngine.should_preserve ad part = true
  · simpa [hp] using h
  · simp only [Bool.not_eq_true] at hp
    cases hl : wm.lookup part with
    | some tok => simpa [hp, hl] using h
    | none =>
      simp only [hp, hl, Bool.false_eq_true, if_false]
      exact lookup_append_some _ _ _ _ h

theorem foldl_subword_step_preserves (ad : LanguageAdapter) :
    ∀ (parts : List String) (acc : List String × SMap) (k v : String),
      acc.2.lookup k = some v →
      ((parts.foldl (ObfuscationEngine.subword_step ad) acc).2).lookup k = some v := by
  intro parts
  induction parts with
  | nil => intro acc k v h; exact h
  | cons p tl ih =>
    intro acc k v h
    rw [List.foldl_cons]
    exact ih _ _ _ (map_subword_preserves_lookup ad acc.2 p k v h)

theorem obfuscate_body_preserves_lookup (ad : LanguageAdapter) (s : String)
    (wm : SMap) (k v : String) (h : wm.lookup k = some v) :
    ((ObfuscationEngine.obfuscate_body ad s wm).2).lookup k = some v := by
  unfold ObfuscationEngine.obfuscate_body
  exact foldl_subword_step_preserves ad _ _ _ _ h

theorem obfuscate_composite_preserves_lookup (ad : LanguageAdapter)
    (name : String) (wm : SMap) (k v : String) (h : wm.lookup k = some v) :
    ((ObfuscationEngine.obfuscate_composite ad name wm).2).lookup k = some v := by
  unfold ObfuscationEngine.obfuscate_composite
  by_cases hp : ObfuscationEngine.should_preserve ad name = true
  · simpa [hp] using h
  · simp only [Bool.not_eq_true] at hp
    cases hs : ObfuscationEngine.findPreservedSuffix ad name with
    | some sfx =>
      simp only [hp, hs, Bool.false_eq_true, if_false]
      exact obfuscate_body_preserves_lookup ad _ wm k v h
    | none =>
      simp only [hp, hs, Bool.false_eq_true, if_false]
      exact obfuscate_body_preserves_lookup ad _ wm k v h

theorem run_composites_preserves_lookup (ad : LanguageAdapter) :
    ∀ (names : List String) (wm : SMap) (k v : String),
      wm.lookup k = some v →
      (ObfuscationEngine.run_composites ad names wm).lookup k = some v := by
  intro names
  induction names with
  | nil => intro wm k v h; exact h
  | cons n tl ih =>
    intro wm k v h
    unfold ObfuscationEngine.run_composites at *
    rw [List.foldl_cons]
    exact ih _ _ _ (obfuscate_composite_preserves_lookup ad n wm k v h)

/-- C4: once a sub-word `w` maps to a token, the word-mapping entry for `w`
never changes and is never removed across any further `obfuscate_composite`
calls sharing the store; and mapping `w` a second time — after the first
mapping and any number of further calls — yields exactly the token assigned
the first time. -/
theorem word_mapping_stable (ad : LanguageAdapter) (wm : SMap) (w : String) :
    (∀ t, wm.lookup w = some t →
      ∀ names, (ObfuscationEngine.run_composites ad names wm).lookup w = some t) ∧
    (∀ names,
      (ObfuscationEngine.map_subword ad
          (ObfuscationEngine.run_composites ad names
            (ObfuscationEngine.map_subword ad wm w).2) w).1 =
        (ObfuscationEngine.map_subword ad wm w).1) := by
  constructor
  · intro t ht names
    exact run_composites_preserves_lookup ad names wm w t ht
  · intro names
    by_cases hp : ObfuscationEngine.should_preserve ad w = true
    · simp [ObfuscationEngine.map_subword, hp]
    · simp only [Bool.not_eq_true] at hp
      cases hl : wm.lookup w with
      | some tok =>
        have h1 : ObfuscationEngine.map_subword ad wm w = (tok, wm) := by
          simp [ObfuscationEngine.map_subword, hp, hl]
        rw [h1]
        have h2 : (ObfuscationEngine.run_composites ad names wm).lookup w = some tok :=
          run_composites_preserves_lookup ad names wm w tok hl
        simp [ObfuscationEngine.map_subword, hp, h2]
      | none =>
        have h1 : ObfuscationEngine.map_subword ad wm w =
            (ObfuscationEngine.deterministic_hash w,
             wm ++ [(w, ObfuscationEngine.deterministic_hash w)]) := by
          simp [ObfuscationEngine.map_subword, hp, hl]
        rw [h1]
        have hlk : (wm ++ [(w, ObfuscationEngine.deterministic_hash w)]).lookup w =
            some (ObfuscationEngine.deterministic_hash w) := by
          rw [lookup_append_none _ _ _ hl]
          simp [List.lookup]
        have h2 := run_composites_preserves_lookup ad names _ w _ hlk
        simp [ObfuscationEngine.map_subword, hp, h2]

/-- C4 witness: concrete instantiation of `word_mapping_stable`. -/
theorem word_mapping_stable_witness :
    (ObfuscationEngine.run_composites CSharpAdapter ["getUserData"]
        [("foo", "T1")]).lookup "foo" = some "T1" :=
  (word_mapping_stable CSharpAdapter [("foo", "T1")] "foo").1 "T1" (by decide)
    ["getUserData"]

/-- C5: an identifier in the preserve-word set is returned unchanged (with
the word mapping untouched); otherwise, when it ends with a declared
preserve-suffix (first match in declared order, non-empty remaining prefix,
as computed by `findPreservedSuffix`), the output is the transformed prefix
with that suffix reattached verbatim. -/
theorem preserve_rules (ad : LanguageAdapter) (name : String) (wm : SMap) :
    (ObfuscationEngine.should_preserve ad name = true →
      ObfuscationEngine.obfuscate_composite ad name wm = (name, wm)) ∧
    (ObfuscationEngine.should_preserve ad name = false →
      ∀ sfx, ObfuscationEngine.findPreservedSuffix ad name = some sfx →
        (ObfuscationEngine.obfuscate_composite ad name wm).1 =
          (ObfuscationEngine.obfuscate_body ad
            ⟨name.data.take (name.length - sfx.length)⟩ wm).1 ++ sfx) := by
  constructor
  · intro h
    simp [ObfuscationEngine.obfuscate_composite, h]
  · intro h sfx hs
    simp [ObfuscationEngine.obfuscate_composite, h, hs]

/-- C5 witness: `getUserDataAsync` under the C# adapter ends with preserved
suffix `Async`; the output is the transformed `getUserData` plus `Async`. -/
theorem preserve_rules_witness :
    (ObfuscationEngine.obfuscate_composite CSharpAdapter "getUserDataAsync" []).1 =
      (ObfuscationEngine.obfuscate_body CSharpAdapter
        ⟨"getUserDataAsync".data.take ("getUserDataAsync".length - "Async".length)⟩ []).1
        ++ "Async" :=
  (preserve_rules CSharpAdapter "getUserDataAsync" []).2 (by decide) "Async" (by decide)

/-! ### C7: mapping store load behaviour -/

/-- C7 (counterexample): when the store is present but unparsable,
`load_existing_mapping` does not surface the error: it catches it internally
and returns the same four empty mappings as for an absent store — the caller
cannot distinguish the two cases, so the caller does not decide the
fallback. -/
theorem load_mapping_counterexample :
    ObfuscationEngine.load_existing_mapping
        (.present (.error "Expecting value: line 1 column 1 (char 0)")) =
      ObfuscationEngine.load_existing_mapping .absent ∧
    ObfuscationEngine.load_existing_mapping .absent = ([], [], [], []) :=
  ⟨rfl, rfl⟩

/-- C7 (amended): loading returns four empty mappings when the store is
absent; when the store is present but unreadable or unparsable the error is
caught inside the load operation (only logged) and four empty mappings are
returned — the fallback happens inside `load_existing_mapping`, not at the
caller; a parsable store yields its four mappings. No case crashes. -/
theorem load_mapping_amended :
    ObfuscationEngine.load_existing_mapping .absent = ([], [], [], []) ∧
    (∀ e, ObfuscationEngine.load_existing_mapping (.present (.error e)) =
      ([], [], [], [])) ∧
    (∀ d, ObfuscationEngine.load_existing_mapping (.present (.ok d)) = d) :=
  ⟨rfl, fun _ => rfl, fun _ => rfl⟩

/-! ### C8: the `getUserDataAsync` scenario -/

/-- C8: with `Async` a declared preserve-suffix and an empty preserve-word
set (the C# adapter), obfuscating the identifier `getUserDataAsync` splits
the prefix on camelCase boundaries into `get`, `User`, `Data`, outputs the
concatenation of their tokens followed by the literal `Async`, and
deobfuscating that output with the saved mappings restores
`getUserDataAsync` exactly. -/
theorem scenario_getUserDataAsync :
    CSharpAdapter.preserve_words = [] ∧
    "Async" ∈ CSharpAdapter.preserve_suffixes ∧
    ObfuscationEngine.split_camelcase "getUserData" = ["get", "User", "Data"] ∧
    (ObfuscationEngine.obfuscate_code_section CSharpAdapter "getUserDataAsync"
        (.mk "compilation_unit" 0 16 [.mk "identifier" 0 16 []]) [] [] [] []).output =
      ObfuscationEngine.deterministic_hash "get" ++
        ObfuscationEngine.deterministic_hash "User" ++
        ObfuscationEngine.deterministic_hash "Data" ++ "Async" ∧
    (let r := ObfuscationEngine.obfuscate_code_section CSharpAdapter "getUserDataAsync"
        (.mk "compilation_unit" 0 16 [.mk "identifier" 0 16 []]) [] [] [] []
     deobfuscate_text r.output r.word_mapping r.identifier_mapping
       r.comment_mapping r.string_mapping = "getUserDataAsync") := by
  refine ⟨rfl, by decide, by decide, by decide, by decide⟩

/-! ### C1 (counterexample): round-trip breaks under a token collision -/

/-- C1 (counterexample): the sub-words `eg` and `ir` hash to the same token
`E7424`; obfuscating the comment-free source `eg ir` from an empty store and
deobfuscating the result with the run's own mappings yields `ir ir`, not the
original source — identifiers are not restored byte-identically. -/
theorem roundtrip_counterexample :
    ObfuscationEngine.deterministic_hash "eg" = "E7424" ∧
    ObfuscationEngine.deterministic_hash "ir" = "E7424" ∧
    (ObfuscationEngine.obfuscate_code_section CSharpAdapter "eg ir"
        (.mk "program" 0 5 [.mk "identifier" 0 2 [], .mk "identifier" 3 5 []])
        [] [] [] []).comment_mapping = [] ∧
    (let r := ObfuscationEngine.obfuscate_code_section CSharpAdapter "eg ir"
        (.mk "program" 0 5 [.mk "identifier" 0 2 [], .mk "identifier" 3 5 []])
        [] [] [] []
     deobfuscate_text r.output r.word_mapping r.identifier_mapping
       r.comment_mapping r.string_mapping = "ir ir") ∧
    ("ir ir" : String) ≠ "eg ir" := by
  refine ⟨by decide, by decide, by decide, by decide, by decide⟩

/-! ### C2: determinism and the persisted file -/

/-- C2 (counterexample): the persisted mapping file embeds
`datetime.now().isoformat()`; two runs of the same source from an empty
store at different wall-clock times persist different bytes even though all
four mappings agree. -/
theorem determinism_counterexample :
    (let r := ObfuscationEngine.obfuscate_code_section CSharpAdapter "eg"
        (.mk "program" 0 2 [.mk "identifier" 0 2 []]) [] [] [] []
     ObfuscationEngine.save_mapping_file CSharpAdapter r.word_mapping
        r.identifier_mapping r.comment_mapping r.string_mapping
        "2025-01-02T03:04:05.000001") ≠
    (let r := ObfuscationEngine.obfuscate_code_section CSharpAdapter "eg"
        (.mk "program" 0 2 [.mk "identifier" 0 2 []]) [] [] [] []
     ObfuscationEngine.save_mapping_file CSharpAdapter r.word_mapping
        r.identifier_mapping r.comment_mapping r.string_mapping
        "2025-01-02T03:04:05.000002") := by
  decide

/-! ### C9: empty string literals are left unchanged -/

/-- C9: for a string-literal node whose text is an empty quoted literal
(two identical quote characters, double or single), provided the empty
string is not already a key of the string mapping — it never is, since the
guard `if string_content and ...` refuses to insert it — the rewrite pass
emits no replacement for the node and adds no StringMapping entry: the
traversal state is returned unchanged, so the literal appears unchanged in
the output. -/
theorem empty_string_unchanged (ad : LanguageAdapter) (src : List Nat)
    (string_ranges preserve_ranges : List (Nat × Nat)) (im : SMap)
    (t : String) (s e : Nat) (st : ObfuscationEngine.ModState) (q : Char)
    (ht : ad.string_node_types.contains t = true)
    (hti : ad.import_node_types.contains t = false)
    (htc : ad.comment_node_types.contains t = false)
    (hq : q = quoteCh ∨ q = apostCh)
    (htext : (bytesToStr (extractBytes src s e)).data = [q, q])
    (hsm : st.string_mapping.lookup "" = none) :
    ObfuscationEngine.collect_mods_node ad src string_ranges preserve_ranges im
      (.mk t s e []) st = st := by
  rw [ObfuscationEngine.collect_mods_node, ObfuscationEngine.collect_mods_list]
  unfold ObfuscationEngine.collect_mods_step
  rw [hti, htc, ht]
  simp only [Bool.false_eq_true, if_false, if_true]
  rw [htext]
  have hqb : (q = backtickCh) = False := by
    rcases hq with h | h <;> subst h <;> simp [quoteCh, apostCh, backtickCh, Char.ofNat]
  have hqq : (q = quoteCh || q = apostCh) = true := by
    rcases hq with h | h <;> subst h <;> simp
  simp only [hqb, if_false, hqq, if_true, eq_self_iff_true]
  simp [hsm]

/-- C9 witness: the concrete empty double-quoted literal `""` over its own
two-byte source under the C# adapter. -/
theorem empty_string_unchanged_witness :
    ObfuscationEngine.collect_mods_node CSharpAdapter [34, 34] [] [] []
      (.mk "string_literal" 0 2 []) ⟨[], [], [], 0⟩ = ⟨[], [], [], 0⟩ :=
  empty_string_unchanged CSharpAdapter [34, 34] [] [] [] "string_literal" 0 2
    ⟨[], [], [], 0⟩ quoteCh (by decide) (by decide) (by decide) (Or.inl rfl)
    (by decide) (by decide)

/-! ### C3: replacement set and application order -/

theorem sortedByStart_cons (a : Replacement) (l : List Replacement) :
    sortedByStart (a :: l) = true ↔
      (∀ b ∈ l.head?, a.1 ≤ b.1) ∧ sortedByStart l = true := by
  cases l <;> simp [sortedByStart]

theorem sortedByStart_insert (m : Replacement) :
    ∀ l : List Replacement, sortedByStart l = true →
      sortedByStart (ObfuscationEngine.insertSortedRepl m l) = true := by
  intro l
  induction l with
  | nil => intro _; rfl
  | cons x xs ih =>
    intro h
    rw [sortedByStart_cons] at h
    unfold ObfuscationEngine.insertSortedRepl
    by_cases hm : m.1 ≤ x.1
    · rw [if_pos hm, sortedByStart_cons]
      refine ⟨?_, (sortedByStart_cons x xs).mpr h⟩
      intro b hb
      simp at hb
      subst hb
      exact hm
    · rw [if_neg hm]
      rw [sortedByStart_cons]
      refine ⟨?_, ih h.2⟩
      cases xs with
      | nil =>
        intro b hb
        simp [ObfuscationEngine.insertSortedRepl] at hb
        subst hb
        omega
      | cons y ys =>
        intro b hb
        unfold ObfuscationEngine.insertSortedRepl at hb
        by_cases hy : m.1 ≤ y.1
        · rw [if_pos hy] at hb
          simp at hb
          subst hb
          omega
        · rw [if_neg hy] at hb
          simp at hb
          subst hb
          exact h.1 y (by simp)

theorem sortMods_sorted (l : List Replacement) :
    sortedByStart (ObfuscationEngine.sortMods l) = true := by
  unfold ObfuscationEngine.sortMods
  induction l with
  | nil => rfl
  | cons x xs ih => exact sortedByStart_insert x _ ih

theorem extract_eq_range'_map (src : List Nat) (a b : Nat) (hb : b ≤ src.length) :
    extractBytes src a b = (List.range' a (b - a)).map fun i => src.getD i 0 := by
  apply List.ext_getElem
  · simp [extractBytes, List.length_range']
    omega
  · intro n h1 h2
    simp only [extractBytes] at h1 ⊢
    rw [List.getElem_take, List.getElem_drop]
    rw [List.getElem_map]
    rw [List.getElem_range']
    have hn : n < b - a := by
      simp at h1
      omega
    rw [List.getD_eq_getElem src 0 (by omega)]
    congr 1
    omega

theorem drop_eq_range'_map (src : List Nat) (last : Nat) :
    src.drop last = (List.range' last (src.length - last)).map fun i => src.getD i 0 := by
  have h := extract_eq_range'_map src last src.length le_rfl
  rw [← h]
  simp [extractBytes]

theorem chainOK_le_length (src : List Nat) :
    ∀ (ms : List Replacement) (last : Nat), chainOK src last ms = true →
      last ≤ src.length := by
  intro ms
  induction ms with
  | nil =>
    intro last h
    simpa [chainOK] using h
  | cons m rest ih =>
    intro last h
    obtain ⟨s, e, r⟩ := m
    simp only [chainOK, Bool.and_eq_true, decide_eq_true_eq] at h
    obtain ⟨⟨h1, h2⟩, hch⟩ := h
    have := ih e hch
    omega

theorem chainOK_starts (src : List Nat) :
    ∀ (ms : List Replacement) (last : Nat), chainOK src last ms = true →
      ∀ m ∈ ms, last ≤ m.1 := by
  intro ms
  induction ms with
  | nil => intro last _ m hm; simp at hm
  | cons x rest ih =>
    intro last h m hm
    obtain ⟨s, e, r⟩ := x
    simp only [chainOK, Bool.and_eq_true, decide_eq_true_eq] at h
    obtain ⟨⟨h1, h2⟩, hch⟩ := h
    rcases List.mem_cons.mp hm with hm | hm
    · subst hm; exact h1
    · have := ih e hch m hm
      omega

theorem coveredIdx_eq_false (ms : List Replacement) (i : Nat)
    (h : ∀ m ∈ ms, i < m.1 ∨ m.2.1 ≤ i) : coveredIdx ms i = false := by
  induction ms with
  | nil => rfl
  | cons m rest ih =>
    simp only [coveredIdx, List.any_cons, Bool.or_eq_false_iff]
    constructor
    · rcases h m (List.mem_cons_self m rest) with hh | hh <;> simp <;> omega
    · exact ih fun x hx => h x (List.mem_cons_of_mem m hx)

theorem gaps_flatten_eq_uncovered (src : List Nat) :
    ∀ (ms : List Replacement) (last : Nat), chainOK src last ms = true →
      (gapSegments src ms last).flatten =
        ((List.range' last (src.length - last)).filter fun i => !coveredIdx ms i).map
          fun i => src.getD i 0 := by
  intro ms
  induction ms with
  | nil =>
    intro last _
    simp only [gapSegments, List.flatten, List.append_nil]
    rw [drop_eq_range'_map]
    have hf : List.filter (fun i => !coveredIdx [] i)
        (List.range' last (src.length - last)) =
        List.range' last (src.length - last) :=
      List.filter_eq_self.mpr fun a _ => by simp [coveredIdx]
    rw [hf]
  | cons m rest ih =>
    intro last h
    obtain ⟨s, e, r⟩ := m
    simp only [chainOK, Bool.and_eq_true, decide_eq_true_eq] at h
    obtain ⟨⟨hls, hse⟩, hch⟩ := h
    have hel : e ≤ src.length := chainOK_le_length src rest e hch
    have hsl : s ≤ src.length := le_trans hse hel
    have hsplit : List.range' last (src.length - last) =
        List.range' last (s - last) ++
          (List.range' s (e - s) ++ List.range' e (src.length - e)) := by
      have h2 : List.range' s (e - s) ++ List.range' e (src.length - e) =
          List.range' s (src.length - s) := by
        have hx := List.range'_append s (e - s) (src.length - e) 1
        have he1 : s + 1 * (e - s) = e := by omega
        have he2 : (src.length - e) + (e - s) = src.length - s := by omega
        rw [he1, he2] at hx
        exact hx
      have h1 : List.range' last (s - last) ++ List.range' s (src.length - s) =
          List.range' last (src.length - last) := by
        have hx := List.range'_append last (s - last) (src.length - s) 1
        have he1 : last + 1 * (s - last) = s := by omega
        have he2 : (src.length - s) + (s - last) = src.length - last := by omega
        rw [he1, he2] at hx
        exact hx
      rw [h2, h1]
    rw [hsplit, List.filter_append, List.filter_append, List.map_append,
      List.map_append]
    have hp1 : List.filter (fun i => !coveredIdx ((s, e, r) :: rest) i)
        (List.range' last (s - last)) = List.range' last (s - last) := by
      apply List.filter_eq_self.mpr
      intro i hi
      rw [List.mem_range'_1] at hi
      have his : i < s := by omega
      rw [coveredIdx_eq_false]
      · rfl
      · intro mm hmm
        rcases List.mem_cons.mp hmm with hmm | hmm
        · subst hmm; left; exact his
        · left
          have := chainOK_starts src rest e hch mm hmm
          omega
    have hp2 : List.filter (fun i => !coveredIdx ((s, e, r) :: rest) i)
        (List.range' s (e - s)) = [] := by
      apply List.filter_eq_nil_iff.mpr
      intro i hi
      rw [List.mem_range'_1] at hi
      have hcov : coveredIdx ((s, e, r) :: rest) i = true := by
        simp only [coveredIdx, List.any_cons, Bool.or_eq_true]
        left
        simp only [Bool.and_eq_true, decide_eq_true_eq]
        omega
      simp [hcov]
    have hp3 : List.filter (fun i => !coveredIdx ((s, e, r) :: rest) i)
        (List.range' e (src.length - e)) =
        List.filter (fun i => !coveredIdx rest i)
          (List.range' e (src.length - e)) := by
      apply List.filter_congr
      intro i hi
      rw [List.mem_range'_1] at hi
      have hhead : coveredIdx ((s, e, r) :: rest) i = coveredIdx rest i := by
        simp only [coveredIdx, List.any_cons]
        have : decide (i < e) = false := by simp; omega
        simp [this]
      rw [hhead]
    rw [hp1, hp2, hp3]
    simp only [gapSegments, List.flatten_cons]
    rw [extract_eq_range'_map src last s hsl, ih e hch]
    simp

theorem apply_mods_eq_joinInterleave (src : List Nat) :
    ∀ (ms : List Replacement) (last : Nat),
      ObfuscationEngine.apply_mods src ms last =
        joinInterleave (gapSegments src ms last) (ms.map replText) := by
  intro ms
  induction ms with
  | nil =>
    intro last
    simp [ObfuscationEngine.apply_mods, gapSegments, joinInterleave]
  | cons m rest ih =>
    intro last
    obtain ⟨s, e, r⟩ := m
    simp only [ObfuscationEngine.apply_mods, gapSegments, List.map_cons,
      joinInterleave, replText]
    rw [ih e]
    by_cases hl : last < s
    · rw [if_pos hl]
      cases r <;> simp
    · rw [if_neg hl]
      have : extractBytes src last s = [] := by
        simp only [extractBytes]
        have : s - last = 0 := by omega
        simp [this]
      rw [this]
      cases r <;> simp

/-- C3 (counterexample): for the C# source `using Foo;` whose tree has a
`using_directive` node (flagged for removal) containing an `identifier`
node, the emitted replacement set contains the full-range import deletion
`[0, 10)` and, nested inside it, the identifier replacement `[6, 9)` — the
set is not pairwise non-overlapping. -/
theorem replacements_overlap_counterexample :
    (ObfuscationEngine.rewrite_plan CSharpAdapter "using Foo;"
        (.mk "compilation_unit" 0 10
          [.mk "using_directive" 0 10 [.mk "identifier" 6 9 []]])
        [] [] [] []).mods =
      [(0, 10, none), (6, 9, some (utf8 "C4522"))] ∧
    pairwiseNonOverlapping [(0, 10, none), (6, 9, some (utf8 "C4522"))] = false := by
  refine ⟨by decide, by decide⟩

/-- C3 (amended): the emitted replacement set can overlap (a removed import
statement's deletion range contains its identifiers' replacement ranges),
but the replacements are always applied sorted ascending by `start_byte`,
and whenever the list is non-overlapping, in bounds, and ordered (each range
ending at or before the next one starts), the output interleaves the
untouched gaps with the replacement texts, with the gap concatenation being
exactly the uncovered source bytes, unchanged and in order. -/
theorem replacements_amended :
    (∀ l : List Replacement, sortedByStart (ObfuscationEngine.sortMods l) = true) ∧
    (∀ (ad : LanguageAdapter) (source : String) (tree : TSNode) (wm im cm sm : SMap),
      (ObfuscationEngine.obfuscate_code_section ad source tree wm im cm sm).output =
        bytesToStr (ObfuscationEngine.apply_mods (utf8 source)
          (ObfuscationEngine.sortMods
            (ObfuscationEngine.rewrite_plan ad source tree wm im cm sm).mods) 0)) ∧
    (∀ (src : List Nat) (ms : List Replacement),
      ObfuscationEngine.apply_mods src ms 0 =
        joinInterleave (gapSegments src ms 0) (ms.map replText)) ∧
    (∀ (src : List Nat) (ms : List Replacement), chainOK src 0 ms = true →
      (gapSegments src ms 0).flatten = uncoveredBytes src ms) := by
  refine ⟨sortMods_sorted, fun _ _ _ _ _ _ _ => rfl,
    fun src ms => apply_mods_eq_joinInterleave src ms 0, fun src ms h => ?_⟩
  rw [gaps_flatten_eq_uncovered src ms 0 h]
  unfold uncoveredBytes
  rw [List.range_eq_range']
  simp

/-- C3 witness: a concrete sorted, disjoint, in-bounds replacement list over
a five-byte source satisfies the amended interleaving and uncovered-bytes
properties. -/
theorem replacements_amended_witness :
    ObfuscationEngine.apply_mods [10, 11, 12, 13, 14] [(1, 2, some [99]), (3, 4, none)] 0 =
      joinInterleave (gapSegments [10, 11, 12, 13, 14] [(1, 2, some [99]), (3, 4, none)] 0)
        ([(1, 2, some [99]), (3, 4, none)].map replText) ∧
    (gapSegments [10, 11, 12, 13, 14] [(1, 2, some [99]), (3, 4, none)] 0).flatten =
      uncoveredBytes [10, 11, 12, 13, 14] [(1, 2, some [99]), (3, 4, none)] :=
  ⟨replacements_amended.2.2.1 [10, 11, 12, 13, 14] [(1, 2, some [99]), (3, 4, none)],
   replacements_amended.2.2.2 [10, 11, 12, 13, 14] [(1, 2, some [99]), (3, 4, none)]
     (by decide)⟩

/-! ### C1 (amended): whole-word restoration acts chunk-wise -/

theorem isPrefixOf_append_self (t r : List Char) : t.isPrefixOf (t ++ r) = true := by
  induction t with
  | nil => simp [List.isPrefixOf]
  | cons c cs ih => simp [List.isPrefixOf, ih]

theorem isPrefixOf_ne_head (c d : Char) (xs ys : List Char) (h : c ≠ d) :
    (c :: xs).isPrefixOf (d :: ys) = false := by
  simp [List.isPrefixOf, h]

theorem eq_append_drop_of_isPrefixOf :
    ∀ (t s : List Char), t.isPrefixOf s = true → s = t ++ s.drop t.length := by
  intro t
  induction t with
  | nil => intro s _; simp
  | cons c cs ih =>
    intro s h
    cases s with
    | nil => simp [List.isPrefixOf] at h
    | cons d ds =>
      simp only [List.isPrefixOf, Bool.and_eq_true, beq_iff_eq] at h
      obtain ⟨rfl, h2⟩ := h
      simpa using ih ds h2

theorem subWBGo_nil (t o : List Char) (fuel : Nat) (prev : Option Char) :
    subWBGo t o fuel prev [] = [] := by
  cases fuel <;> rfl

theorem subWBGo_fuel (t o : List Char) (ht : t ≠ []) :
    ∀ (f1 : Nat) (s : List Char) (f2 : Nat) (prev : Option Char),
      s.length ≤ f1 → s.length ≤ f2 →
      subWBGo t o f1 prev s = subWBGo t o f2 prev s := by
  intro f1
  induction f1 with
  | zero =>
    intro s f2 prev h1 _
    have : s = [] := by
      cases s
      · rfl
      · simp at h1
    subst this
    rw [subWBGo_nil, subWBGo_nil]
  | succ f1 ih =>
    intro s f2 prev h1 h2
    cases s with
    | nil => rw [subWBGo_nil, subWBGo_nil]
    | cons c rest =>
      cases f2 with
      | zero => simp at h2
      | succ f2 =>
        simp only [List.length_cons] at h1 h2
        simp only [subWBGo]
        by_cases hcond : (!t.isEmpty && t.isPrefixOf (c :: rest) &&
            wbBoundary prev (some c) &&
            wbBoundary t.getLast? ((c :: rest).drop t.length).head?) = true
        · rw [if_pos hcond, if_pos hcond]
          congr 1
          apply ih
          · simp only [List.length_drop, List.length_cons]
            have : 1 ≤ t.length := by
              cases t
              · simp at ht
              · simp
            omega
          · simp only [List.length_drop, List.length_cons]
            have : 1 ≤ t.length := by
              cases t
              · simp at ht
              · simp
            omega
        · rw [if_neg hcond, if_neg hcond]
          congr 1
          apply ih
          · omega
          · omega

theorem getLast?_cons_ne_none (a : Char) (l : List Char) :
    (a :: l).getLast? ≠ none := by
  induction l generalizing a with
  | nil => simp [List.getLast?]
  | cons b bs ih =>
    rw [List.getLast?_cons_cons]
    exact ih b

theorem prevAfter_cons (prev : Option Char) (c : Char) (l : List Char) :
    prevAfter prev (c :: l) = prevAfter (some c) l := rfl

theorem prevAfter_eq_getLast? :
    ∀ (l : List Char) (prev : Option Char), l ≠ [] → prevAfter prev l = l.getLast? := by
  intro l
  induction l with
  | nil => intro prev h; exact absurd rfl h
  | cons c cs ih =>
    intro prev _
    show prevAfter (some c) cs = (c :: cs).getLast?
    cases cs with
    | nil => rfl
    | cons d ds =>
      rw [List.getLast?_cons_cons]
      exact ih (some c) (by simp)

theorem subWBGo_sep (t o : List Char) (ht : t ≠ []) (htw : t.all isWordChar = true) :
    ∀ (sep : List Char), sep.all (fun c => !isWordChar c) = true →
    ∀ (rest : List Char) (fuel : Nat) (prev : Option Char),
      (sep ++ rest).length ≤ fuel →
      subWBGo t o fuel prev (sep ++ rest) =
        sep ++ subWBGo t o rest.length (prevAfter prev sep) rest := by
  intro sep
  induction sep with
  | nil =>
    intro _ rest fuel prev hf
    simp only [List.nil_append, prevAfter]
    exact subWBGo_fuel t o ht fuel rest rest.length prev (by simpa using hf) le_rfl
  | cons c cs ih =>
    intro hsep rest fuel prev hf
    simp only [List.all_cons, Bool.and_eq_true] at hsep
    obtain ⟨hc, hcs⟩ := hsep
    have hc' : isWordChar c = false := by simpa using hc
    cases fuel with
    | zero => simp at hf
    | succ fuel =>
      simp only [List.cons_append, subWBGo, List.append_eq]
      have hpre : t.isPrefixOf (c :: (cs ++ rest)) = false := by
        cases t with
        | nil => simp at ht
        | cons tc tcs =>
          simp only [List.all_cons, Bool.and_eq_true] at htw
          apply isPrefixOf_ne_head
          intro heq
          rw [← heq, htw.1] at hc'
          simp at hc'
      rw [hpre]
      simp only [Bool.and_false, Bool.false_and]
      rw [if_neg (by simp)]
      rw [prevAfter_cons]
      congr 1
      apply ih hcs
      simp only [List.length_append, List.length_cons] at hf ⊢
      omega

theorem subWBGo_inword (t o : List Char) (ht : t ≠ []) :
    ∀ (w : List Char), w.all isWordChar = true →
    ∀ (rest : List Char) (fuel : Nat) (pc : Char), isWordChar pc = true →
      (w ++ rest).length ≤ fuel →
      subWBGo t o fuel (some pc) (w ++ rest) =
        w ++ subWBGo t o rest.length (prevAfter (some pc) w) rest := by
  intro w
  induction w with
  | nil =>
    intro _ rest fuel pc _ hf
    simp only [List.nil_append, prevAfter]
    exact subWBGo_fuel t o ht fuel rest rest.length _ (by simpa using hf) le_rfl
  | cons c cs ih =>
    intro hw rest fuel pc hpc hf
    simp only [List.all_cons, Bool.and_eq_true] at hw
    obtain ⟨hc, hcs⟩ := hw
    cases fuel with
    | zero => simp at hf
    | succ fuel =>
      simp only [List.cons_append, subWBGo, List.append_eq]
      have hbnd : wbBoundary (some pc) (some c) = false := by
        simp [wbBoundary, hpc, hc]
      rw [hbnd]
      simp only [Bool.and_false, Bool.false_and]
      rw [if_neg (by simp)]
      rw [prevAfter_cons]
      congr 1
      apply ih hcs rest fuel c hc
      simp only [List.length_append, List.length_cons] at hf ⊢
      omega

theorem all_word_getLast? (l : List Char) (hne : l ≠ [])
    (hall : l.all isWordChar = true) :
    ∃ g, l.getLast? = some g ∧ isWordChar g = true := by
  refine ⟨l.getLast hne, List.getLast?_eq_getLast l hne, ?_⟩
  have hmem := List.getLast_mem hne
  exact (List.all_eq_true.mp hall) _ hmem

theorem head?_append_of_ne_nil (a b : List Char) (h : a ≠ []) :
    (a ++ b).head? = a.head? := by
  cases a with
  | nil => exact absurd rfl h
  | cons c cs => rfl

theorem subWBGo_match (t o : List Char) (ht : t ≠ []) (htw : t.all isWordChar = true) :
    ∀ (restF : List Char) (fuel : Nat) (prev : Option Char),
      (∀ pc, prev = some pc → isWordChar pc = false) →
      (∀ rc, restF.head? = some rc → isWordChar rc = false) →
      (t ++ restF).length ≤ fuel →
      subWBGo t o fuel prev (t ++ restF) =
        o ++ subWBGo t o restF.length t.getLast? restF := by
  intro restF fuel prev hprev hrest hf
  cases t with
  | nil => exact absurd rfl ht
  | cons tc tcs =>
    have htc : isWordChar tc = true := by
      simp only [List.all_cons, Bool.and_eq_true] at htw
      exact htw.1
    cases fuel with
    | zero => simp at hf
    | succ fuel =>
      simp only [List.cons_append, subWBGo, List.append_eq]
      have hc1 : (tc :: tcs).isEmpty = false := rfl
      have hc2 : (tc :: tcs).isPrefixOf (tc :: (tcs ++ restF)) = true := by
        have h := isPrefixOf_append_self (tc :: tcs) restF
        simpa using h
      have hc3 : wbBoundary prev (some tc) = true := by
        cases prev with
        | none => simp [wbBoundary, htc]
        | some pc => simp [wbBoundary, htc, hprev pc rfl]
      have hdrop : (tc :: (tcs ++ restF)).drop (tc :: tcs).length = restF := by
        have h : tc :: (tcs ++ restF) = (tc :: tcs) ++ restF := by simp
        rw [h, List.drop_left]
      have hc4 : wbBoundary (tc :: tcs).getLast?
          ((tc :: (tcs ++ restF)).drop (tc :: tcs).length).head? = true := by
        rw [hdrop]
        obtain ⟨g, hg, hgw⟩ := all_word_getLast? (tc :: tcs) (by simp) htw
        rw [hg]
        cases hh : restF.head? with
        | none => simp [wbBoundary, hgw]
        | some rc => simp [wbBoundary, hgw, hrest rc hh]
      rw [hc1, hc2, hc3, hc4]
      simp only [Bool.not_false, Bool.and_true, Bool.true_and, if_true]
      rw [hdrop]
      congr 1
      apply subWBGo_fuel (tc :: tcs) o (by simp)
      · simp only [List.length_append, List.length_cons] at hf
        omega
      · exact le_rfl

theorem subWBGo_word_nomatch (t o : List Char) (ht : t ≠ [])
    (htw : t.all isWordChar = true) :
    ∀ (w : List Char), w ≠ [] → w.all isWordChar = true → w ≠ t →
    ∀ (restF : List Char) (fuel : Nat) (prev : Option Char),
      (∀ pc, prev = some pc → isWordChar pc = false) →
      (∀ rc, restF.head? = some rc → isWordChar rc = false) →
      (w ++ restF).length ≤ fuel →
      subWBGo t o fuel prev (w ++ restF) =
        w ++ subWBGo t o restF.length (prevAfter prev w) restF := by
  intro w hw hww hne restF fuel prev hprev hrest hf
  cases w with
  | nil => exact absurd rfl hw
  | cons c cs =>
    have hcw : isWordChar c = true := by
      simp only [List.all_cons, Bool.and_eq_true] at hww
      exact hww.1
    cases fuel with
    | zero => simp at hf
    | succ fuel =>
      simp only [List.cons_append, subWBGo, List.append_eq]
      have hnomatch : ((!t.isEmpty) && t.isPrefixOf (c :: (cs ++ restF)) &&
          wbBoundary prev (some c) &&
          wbBoundary t.getLast? ((c :: (cs ++ restF)).drop t.length).head?) = false := by
        by_cases hpre : t.isPrefixOf (c :: (cs ++ restF)) = true
        · rcases Nat.lt_trichotomy t.length (c :: cs).length with hlt | heq | hgt
          · -- t is a proper prefix of the word run: right boundary fails
            have hdrop : (c :: (cs ++ restF)).drop t.length =
                ((c :: cs).drop t.length) ++ restF := by
              have hrw : c :: (cs ++ restF) = (c :: cs) ++ restF := by simp
              rw [hrw, List.drop_append_eq_append_drop]
              have hz : t.length - (c :: cs).length = 0 := by
                simp only [List.length_cons] at hlt ⊢
                omega
              rw [hz]
              simp
            have hne2 : (c :: cs).drop t.length ≠ [] := by
              intro hnil
              have hlen := congrArg List.length hnil
              simp only [List.length_drop, List.length_cons, List.length_nil] at hlen
              simp only [List.length_cons] at hlt
              omega
            obtain ⟨g, hg, hgw⟩ := all_word_getLast? t ht htw
            rw [hdrop, hg, head?_append_of_ne_nil _ _ hne2]
            cases hdd : (c :: cs).drop t.length with
            | nil => exact absurd hdd hne2
            | cons d ds =>
              have hd : d ∈ (c :: cs) := by
                have hdm : d ∈ (c :: cs).drop t.length := by simp [hdd]
                exact List.drop_subset _ _ hdm
              have hdw : isWordChar d = true := (List.all_eq_true.mp hww) _ hd
              simp [wbBoundary, hgw, hdw]
          · -- same length: then t = w, contradiction
            exfalso
            have hsplit := eq_append_drop_of_isPrefixOf t _ hpre
            have htake : (c :: (cs ++ restF)).take t.length = t := by
              conv_lhs => rw [hsplit]
              exact List.take_left' rfl
            have htake2 : (c :: (cs ++ restF)).take t.length = c :: cs := by
              have hrw : c :: (cs ++ restF) = (c :: cs) ++ restF := by simp
              rw [hrw, heq]
              exact List.take_left' rfl
            exact hne (htake2.symm.trans htake)
          · -- t longer than the word run: t would continue past the run
            exfalso
            have hsplit := eq_append_drop_of_isPrefixOf t _ hpre
            have htaket : (c :: (cs ++ restF)).take (c :: cs).length =
                t.take (c :: cs).length := by
              conv_lhs => rw [hsplit]
              rw [List.take_append_of_le_length (by omega)]
            have htake : (c :: (cs ++ restF)).take (c :: cs).length = c :: cs := by
              have hrw : c :: (cs ++ restF) = (c :: cs) ++ restF := by simp
              rw [hrw]
              exact List.take_left' rfl
            have htw2 : t.take (c :: cs).length = c :: cs := by
              rw [← htaket, htake]
            have htsplit : t = (c :: cs) ++ t.drop (c :: cs).length := by
              conv_lhs => rw [← List.take_append_drop (c :: cs).length t]
              rw [htw2]
            have hrest2 : restF = t.drop (c :: cs).length ++
                (c :: (cs ++ restF)).drop t.length := by
              apply List.append_cancel_left
              calc (c :: cs) ++ restF = c :: (cs ++ restF) := by simp
                _ = t ++ (c :: (cs ++ restF)).drop t.length := hsplit
                _ = ((c :: cs) ++ t.drop (c :: cs).length) ++
                      (c :: (cs ++ restF)).drop t.length := by rw [← htsplit]
                _ = (c :: cs) ++ (t.drop (c :: cs).length ++
                      (c :: (cs ++ restF)).drop t.length) := by
                      rw [List.append_assoc]
            have htdne : t.drop (c :: cs).length ≠ [] := by
              intro hnil
              have hlen := congrArg List.length hnil
              simp only [List.length_drop, List.length_cons, List.length_nil] at hlen
              simp only [List.length_cons] at hgt
              omega
            cases hdd : t.drop (c :: cs).length with
            | nil => exact absurd hdd htdne
            | cons e es =>
              have hew : isWordChar e = true := by
                have hem : e ∈ t := by
                  have hm : e ∈ t.drop (c :: cs).length := by
                    rw [hdd]
                    exact List.mem_cons_self e es
                  exact List.drop_subset _ _ hm
                exact (List.all_eq_true.mp htw) _ hem
              have hhd : restF.head? = some e := by
                rw [hrest2, hdd]
                rfl
              have hfalse := hrest e hhd
              rw [hew] at hfalse
              simp at hfalse
        · simp only [Bool.not_eq_true] at hpre
          rw [hpre]
          simp
      rw [hnomatch]
      simp only [Bool.false_eq_true, if_false]
      rw [prevAfter_cons]
      congr 1
      have hcs : cs.all isWordChar = true := by
        simp only [List.all_cons, Bool.and_eq_true] at hww
        exact hww.2
      apply subWBGo_inword t o ht cs hcs restF fuel c hcw
      simp only [List.length_append, List.length_cons] at hf ⊢
      omega

theorem uniform_class_word (ch : List Char) (hu : uniformChunk ch = true)
    (hc : chunkClass ch = true) : ch ≠ [] ∧ ch.all isWordChar = true := by
  cases ch with
  | nil => simp [uniformChunk] at hu
  | cons c cs =>
    simp only [chunkClass] at hc
    refine ⟨by simp, ?_⟩
    rw [List.all_eq_true]
    intro x hx
    rcases List.mem_cons.mp hx with rfl | hx
    · exact hc
    · have hx2 := (List.all_eq_true.mp hu) x hx
      simp only [beq_iff_eq] at hx2
      rw [hx2, hc]

theorem uniform_class_sep (ch : List Char) (hu : uniformChunk ch = true)
    (hc : chunkClass ch = false) :
    ch ≠ [] ∧ ch.all (fun c => !isWordChar c) = true := by
  cases ch with
  | nil => simp [uniformChunk] at hu
  | cons c cs =>
    simp only [chunkClass] at hc
    refine ⟨by simp, ?_⟩
    rw [List.all_eq_true]
    intro x hx
    rcases List.mem_cons.mp hx with rfl | hx
    · simp [hc]
    · have hx2 := (List.all_eq_true.mp hu) x hx
      simp only [beq_iff_eq] at hx2
      simp [hx2, hc]

theorem chunksOK_prev_class (rest : List (List Char)) (g g' : Char)
    (h : isWordChar g = isWordChar g') :
    chunksOK (some g) rest = chunksOK (some g') rest := by
  cases rest with
  | nil => rfl
  | cons ch r => simp only [chunksOK, h]

theorem chunks_flatten_head_sep (rest : List (List Char)) (g : Char)
    (h : chunksOK (some g) rest = true) (hg : isWordChar g = true) :
    ∀ rc, rest.flatten.head? = some rc → isWordChar rc = false := by
  cases rest with
  | nil => intro rc h2; simp at h2
  | cons ch r =>
    intro rc h2
    simp only [chunksOK, Bool.and_eq_true, bne_iff_ne] at h
    obtain ⟨⟨hu, hpm⟩, _⟩ := h
    cases ch with
    | nil => simp [uniformChunk] at hu
    | cons c cs =>
      simp only [chunkClass] at hpm
      rw [hg] at hpm
      have hc : isWordChar c = false := by
        cases hcc : isWordChar c
        · rfl
        · exact absurd hcc.symm hpm
      have hrc : rc = c := by
        simp only [List.flatten_cons, List.cons_append, List.head?_cons,
          Option.some.injEq] at h2
        exact h2.symm
      rw [hrc]
      exact hc

theorem subWB_chunks (t o : List Char) (ht : t ≠ []) (htw : t.all isWordChar = true) :
    ∀ (chunks : List (List Char)) (prev : Option Char) (fuel : Nat),
      chunksOK prev chunks = true →
      chunks.flatten.length ≤ fuel →
      subWBGo t o fuel prev chunks.flatten =
        (chunks.map fun ch => if ch == t then o else ch).flatten := by
  intro chunks
  induction chunks with
  | nil =>
    intro prev fuel _ _
    simp [subWBGo_nil]
  | cons ch rest ih =>
    intro prev fuel hok hf
    simp only [chunksOK, Bool.and_eq_true] at hok
    obtain ⟨⟨hu, hpm⟩, hchain⟩ := hok
    simp only [List.flatten_cons, List.map_cons] at hf ⊢
    by_cases hclass : chunkClass ch = true
    · obtain ⟨hne, hall⟩ := uniform_class_word ch hu hclass
      have hprev : ∀ pc, prev = some pc → isWordChar pc = false := by
        intro pc hpc
        subst hpc
        simp only [bne_iff_ne] at hpm
        rw [hclass] at hpm
        cases hcc : isWordChar pc
        · rfl
        · exact absurd hcc hpm
      obtain ⟨g, hg, hgw⟩ := all_word_getLast? ch hne hall
      have hchain2 : chunksOK (some g) rest = true := by
        rw [hg] at hchain
        exact hchain
      have hrh : ∀ rc, rest.flatten.head? = some rc → isWordChar rc = false :=
        chunks_flatten_head_sep rest g hchain2 hgw
      by_cases heq : ch = t
      · rw [heq] at hg hf ⊢
        rw [subWBGo_match t o ht htw rest.flatten fuel prev hprev hrh hf]
        rw [if_pos (by simp : ((t : List Char) == t) = true)]
        congr 1
        rw [hg]
        exact ih (some g) rest.flatten.length hchain2 le_rfl
      · rw [subWBGo_word_nomatch t o ht htw ch hne hall heq rest.flatten fuel prev
          hprev hrh hf]
        have hbeq : (ch == t) = false := by
          simp only [beq_eq_false_iff_ne, ne_eq]
          exact heq
        rw [if_neg (by simp [hbeq])]
        congr 1
        rw [prevAfter_eq_getLast? ch prev hne, hg]
        exact ih (some g) rest.flatten.length hchain2 le_rfl
    · have hclass2 : chunkClass ch = false := by
        cases hcc : chunkClass ch
        · rfl
        · exact absurd hcc hclass
      obtain ⟨hne, hall⟩ := uniform_class_sep ch hu hclass2
      rw [subWBGo_sep t o ht htw ch hall rest.flatten fuel prev hf]
      have hcht : ch ≠ t := by
        intro hcheq
        subst hcheq
        cases ch with
        | nil => exact absurd rfl ht
        | cons c cs =>
          simp only [List.all_cons, Bool.and_eq_true] at htw hall
          rw [htw.1] at hall
          simp at hall
      have hbeq : (ch == t) = false := by
        simp only [beq_eq_false_iff_ne, ne_eq]
        exact hcht
      rw [if_neg (by simp [hbeq])]
      congr 1
      rw [prevAfter_eq_getLast? ch prev hne]
      exact ih ch.getLast? rest.flatten.length hchain le_rfl

theorem dropWhile_eq_cons_head_false (p : Char → Bool) :
    ∀ (l : List Char) (d : Char) (ds : List Char),
      l.dropWhile p = d :: ds → p d = false := by
  intro l
  induction l with
  | nil => intro d ds h; simp [List.dropWhile] at h
  | cons x xs ih =>
    intro d ds h
    rw [List.dropWhile_cons] at h
    by_cases hx : p x = true
    · rw [if_pos hx] at h
      exact ih d ds h
    · rw [if_neg hx] at h
      cases h
      cases hpx : p x
      · rfl
      · exact absurd hpx hx

theorem dropWhile_length_le (p : Char → Bool) :
    ∀ l : List Char, (l.dropWhile p).length ≤ l.length := by
  intro l
  induction l with
  | nil => simp
  | cons c cs ih =>
    rw [List.dropWhile_cons]
    by_cases hc : p c = true
    · rw [if_pos hc]
      simp only [List.length_cons]
      omega
    · rw [if_neg hc]

theorem wordChunksGo_flatten :
    ∀ (fuel : Nat) (l : List Char), l.length ≤ fuel →
      (wordChunksGo fuel l).flatten = l := by
  intro fuel
  induction fuel with
  | zero =>
    intro l hl
    cases l with
    | nil => rfl
    | cons c rest => simp at hl
  | succ fuel ih =>
    intro l hl
    cases l with
    | nil => rfl
    | cons c rest =>
      simp only [wordChunksGo, List.flatten_cons]
      rw [ih]
      · exact List.takeWhile_append_dropWhile _ _
      · have h1 : (c :: rest).dropWhile (fun x => isWordChar x == isWordChar c) =
            rest.dropWhile (fun x => isWordChar x == isWordChar c) := by
          rw [List.dropWhile_cons, if_pos (by simp)]
        rw [h1]
        have := dropWhile_length_le (fun x => isWordChar x == isWordChar c) rest
        simp only [List.length_cons] at hl
        omega

theorem wordChunksGo_ok :
    ∀ (fuel : Nat) (l : List Char) (prev : Option Char), l.length ≤ fuel →
      (∀ pc c cs, prev = some pc → l = c :: cs → isWordChar pc ≠ isWordChar c) →
      chunksOK prev (wordChunksGo fuel l) = true := by
  intro fuel
  induction fuel with
  | zero =>
    intro l prev hl _
    cases l with
    | nil => rfl
    | cons c rest => simp at hl
  | succ fuel ih =>
    intro l prev hl hprev
    cases l with
    | nil => rfl
    | cons c rest =>
      simp only [wordChunksGo]
      have htw : (c :: rest).takeWhile (fun x => isWordChar x == isWordChar c) =
          c :: rest.takeWhile (fun x => isWordChar x == isWordChar c) := by
        rw [List.takeWhile_cons, if_pos (by simp)]
      have hdw : (c :: rest).dropWhile (fun x => isWordChar x == isWordChar c) =
          rest.dropWhile (fun x => isWordChar x == isWordChar c) := by
        rw [List.dropWhile_cons, if_pos (by simp)]
      rw [htw, hdw]
      simp only [chunksOK, Bool.and_eq_true]
      refine ⟨⟨?_, ?_⟩, ?_⟩
      · -- uniform
        simp only [uniformChunk]
        rw [List.all_eq_true]
        intro x hx
        have := List.mem_takeWhile_imp hx
        simpa using this
      · -- prev relation
        cases prev with
        | none => rfl
        | some pc =>
          simp only [chunkClass, bne_iff_ne, ne_eq]
          exact fun h => hprev pc c rest rfl rfl h
      · -- chain
        apply ih
        · have := dropWhile_length_le (fun x => isWordChar x == isWordChar c) rest
          simp only [List.length_cons] at hl
          omega
        · intro pc d ds hpc hdrop
          -- pc is the last of the takeWhile chunk: same class as c;
          -- d is the head of the dropWhile remainder: different class
          have hpcw : isWordChar pc = isWordChar c := by
            have hmem : pc ∈ c :: rest.takeWhile (fun x => isWordChar x == isWordChar c) := by
              have hne : (c :: rest.takeWhile fun x => isWordChar x == isWordChar c) ≠ [] := by
                simp
              have := List.getLast?_eq_getLast _ hne
              rw [this] at hpc
              cases hpc
              exact List.getLast_mem hne
            rcases List.mem_cons.mp hmem with rfl | hmem
            · rfl
            · have := List.mem_takeWhile_imp hmem
              simpa using this
          have hd : isWordChar d ≠ isWordChar c := by
            have := dropWhile_eq_cons_head_false
              (fun x => isWordChar x == isWordChar c) rest d ds hdrop
            simpa using this
          rw [hpcw]
          exact hd.symm

theorem uniform_of_all_word (l : List Char) (hne : l ≠ [])
    (hall : l.all isWordChar = true) : uniformChunk l = true := by
  cases l with
  | nil => exact absurd rfl hne
  | cons c cs =>
    simp only [List.all_cons, Bool.and_eq_true] at hall
    simp only [uniformChunk]
    rw [List.all_eq_true]
    intro x hx
    have := (List.all_eq_true.mp hall.2) x hx
    simp [this, hall.1]

theorem chunksOK_map_replace (t o : List Char) (ht : t ≠ [])
    (htw : t.all isWordChar = true) (hone : o ≠ []) (how : o.all isWordChar = true) :
    ∀ (chunks : List (List Char)) (prev : Option Char), chunksOK prev chunks = true →
      chunksOK prev (chunks.map fun ch => if ch == t then o else ch) = true := by
  intro chunks
  induction chunks with
  | nil => intro prev _; rfl
  | cons ch rest ih =>
    intro prev hok
    simp only [chunksOK, Bool.and_eq_true] at hok
    obtain ⟨⟨hu, hpm⟩, hchain⟩ := hok
    simp only [List.map_cons]
    by_cases heq : ch = t
    · rw [if_pos (by simp [heq])]
      simp only [chunksOK, Bool.and_eq_true]
      have hclasst : chunkClass t = true := by
        cases t with
        | nil => exact absurd rfl ht
        | cons tc tcs =>
          simp only [List.all_cons, Bool.and_eq_true] at htw
          simpa [chunkClass] using htw.1
      have hclasso : chunkClass o = true := by
        cases o with
        | nil => exact absurd rfl hone
        | cons oc ocs =>
          simp only [List.all_cons, Bool.and_eq_true] at how
          simpa [chunkClass] using how.1
      refine ⟨⟨uniform_of_all_word o hone how, ?_⟩, ?_⟩
      · rw [heq] at hpm
        cases prev with
        | none => rfl
        | some pc =>
          rw [hclasso]
          rw [hclasst] at hpm
          exact hpm
      · obtain ⟨g, hg, hgw⟩ := all_word_getLast? o hone how
        rw [heq] at hchain
        obtain ⟨gt, hgt, hgtw⟩ := all_word_getLast? t ht htw
        rw [hgt] at hchain
        have hm := ih (some gt) hchain
        rw [hg, chunksOK_prev_class _ g gt (by rw [hgw, hgtw])]
        exact hm
    · rw [if_neg (by simp [heq])]
      simp only [chunksOK, Bool.and_eq_true]
      exact ⟨⟨hu, hpm⟩, ih ch.getLast? hchain⟩

theorem passes_fold :
    ∀ (L : List (String × String)), L.all wordPairOK = true →
    ∀ (chunks : List (List Char)), chunksOK none chunks = true →
      L.foldl (fun (res : String) pr => reSubWB res pr.1 pr.2) ⟨chunks.flatten⟩ =
        ⟨(chunks.map (runFold L)).flatten⟩ := by
  intro L
  induction L with
  | nil =>
    intro _ chunks _
    simp only [List.foldl_nil]
    congr 1
    have hmap : List.map (runFold []) chunks = chunks := by
      have hid : runFold ([] : List (String × String)) = fun ch => ch := by
        funext ch
        rfl
      rw [hid, List.map_id']
    rw [hmap]
  | cons pr L' ih =>
    intro hL chunks hok
    simp only [List.all_cons, Bool.and_eq_true] at hL
    obtain ⟨hpr, hL'⟩ := hL
    simp only [wordPairOK, Bool.and_eq_true] at hpr
    obtain ⟨⟨⟨h1, h2⟩, h3⟩, h4⟩ := hpr
    have ht1 : pr.1.data ≠ [] := by
      intro hnil
      rw [hnil] at h1
      simp at h1
    have ho1 : pr.2.data ≠ [] := by
      intro hnil
      rw [hnil] at h3
      simp at h3
    rw [List.foldl_cons]
    have hstep : reSubWB ⟨chunks.flatten⟩ pr.1 pr.2 =
        ⟨(chunks.map fun ch => if ch == pr.1.data then pr.2.data else ch).flatten⟩ := by
      show String.mk _ = _
      congr 1
      exact subWB_chunks pr.1.data pr.2.data ht1 h2 chunks none _ hok le_rfl
    rw [hstep]
    rw [ih hL' _ (chunksOK_map_replace pr.1.data pr.2.data ht1 h2 ho1 h4 chunks none hok)]
    congr 1
    rw [List.map_map]
    congr 1

theorem string_mk_data (s : String) : (⟨s.data⟩ : String) = s := by
  cases s
  rfl

theorem deobf_no_comments_strings (obf : String) (wm im : SMap)
    (hq : (reverse_changed im).all (fun kv => !quotedKey kv) = true) :
    deobfuscate_text obf wm im [] [] =
      (sortByKeyLenDesc (reverse_changed wm)).foldl
        (fun res kv => reSubWB res kv.1 kv.2)
        ((sortByKeyLenDesc (reverse_changed im)).foldl
          (fun res kv => reSubWB res kv.1 kv.2) obf) := by
  simp only [quotedKey] at hq
  have hfilter1 : (reverse_changed im).filter
      (fun kv => quoteStr.data.isPrefixOf kv.1.data &&
        quoteStr.data.isSuffixOf kv.1.data) = [] := by
    apply List.filter_eq_nil_iff.mpr
    intro kv hkv
    have := (List.all_eq_true.mp hq) kv hkv
    simp only [Bool.not_eq_true'] at this
    simp [this]
  have hfilter2 : (reverse_changed im).filter
      (fun kv => !(quoteStr.data.isPrefixOf kv.1.data &&
        quoteStr.data.isSuffixOf kv.1.data)) = reverse_changed im := by
    apply List.filter_eq_self.mpr
    intro kv hkv
    exact (List.all_eq_true.mp hq) kv hkv
  unfold deobfuscate_text
  simp only [List.isEmpty_nil, if_true]
  cases im with
  | nil =>
    simp only [List.isEmpty_nil, if_true]
    cases wm with
    | nil => simp [reverse_changed, sortByKeyLenDesc]
    | cons kv wm' =>
      simp only [List.isEmpty_cons, Bool.false_eq_true, if_false]
      simp [reverse_changed, sortByKeyLenDesc]
  | cons kv1 im' =>
    simp only [List.isEmpty_cons, Bool.false_eq_true, if_false]
    rw [hfilter1, hfilter2]
    simp only [sortByKeyLenDesc, List.foldr_nil, List.foldl_nil]
    cases wm with
    | nil =>
      simp only [List.isEmpty_nil, if_true]
      simp [reverse_changed, sortByKeyLenDesc]
    | cons kv2 wm' =>
      simp only [List.isEmpty_cons, Bool.false_eq_true, if_false]

theorem replaceAllGo_fuel (p q : List Char) (hp : p ≠ []) :
    ∀ (f1 : Nat) (s : List Char) (f2 : Nat), s.length ≤ f1 → s.length ≤ f2 →
      replaceAllGo p q f1 s = replaceAllGo p q f2 s := by
  intro f1
  induction f1 with
  | zero =>
    intro s f2 h1 _
    have hs : s = [] := by
      cases s
      · rfl
      · simp at h1
    subst hs
    cases f2 <;> rfl
  | succ f1 ih =>
    intro s f2 h1 h2
    cases s with
    | nil => cases f2 <;> rfl
    | cons c rest =>
      cases f2 with
      | zero => simp at h2
      | succ f2 =>
        simp only [List.length_cons] at h1 h2
        simp only [replaceAllGo]
        have hply : 1 ≤ p.length := by
          cases p
          · exact absurd rfl hp
          · simp
        by_cases hcond : (!p.isEmpty && p.isPrefixOf (c :: rest)) = true
        · rw [if_pos hcond, if_pos hcond]
          congr 1
          apply ih
          · simp only [List.length_drop, List.length_cons]
            omega
          · simp only [List.length_drop, List.length_cons]
            omega
        · rw [if_neg hcond, if_neg hcond]
          congr 1
          apply ih
          · omega
          · omega

theorem noOcc_iff (p s : List Char) :
    noOcc p s = true ↔ ∀ i < s.length, p.isPrefixOf (s.drop i) = false := by
  simp only [noOcc, List.all_eq_true, List.mem_range, Bool.not_eq_true']

theorem noOcc_cons (p : List Char) (c : Char) (rest : List Char)
    (h : noOcc p (c :: rest) = true) : noOcc p rest = true := by
  rw [noOcc_iff] at h ⊢
  intro i hi
  have := h (i + 1) (by simp; omega)
  simpa using this

theorem replaceAllGo_no_occurrence (p q : List Char) (_hp : p ≠ []) :
    ∀ (fuel : Nat) (s : List Char), s.length ≤ fuel → noOcc p s = true →
      replaceAllGo p q fuel s = s := by
  intro fuel
  induction fuel with
  | zero =>
    intro s h1 _
    cases s
    · rfl
    · simp at h1
  | succ fuel ih =>
    intro s h1 hno
    cases s with
    | nil => rfl
    | cons c rest =>
      simp only [replaceAllGo]
      have h0 : p.isPrefixOf (c :: rest) = false := by
        have := (noOcc_iff p (c :: rest)).mp hno 0 (by simp)
        simpa using this
      rw [h0]
      simp only [Bool.and_false]
      rw [if_neg (by simp)]
      congr 1
      apply ih rest
      · simp only [List.length_cons] at h1
        omega
      · exact noOcc_cons p c rest hno

theorem replaceAllGo_splice (p q : List Char) (hp : p ≠ []) :
    ∀ (a : List Char) (s : List Char) (fuel : Nat),
      (a ++ p ++ s).length ≤ fuel →
      (∀ i, i < a.length → p.isPrefixOf ((a ++ p ++ s).drop i) = false) →
      replaceAllGo p q fuel (a ++ p ++ s) =
        a ++ q ++ replaceAllGo p q s.length s := by
  intro a
  induction a with
  | nil =>
    intro s fuel hf _
    simp only [List.nil_append] at hf ⊢
    cases fuel with
    | zero =>
      exfalso
      cases p
      · exact absurd rfl hp
      · simp at hf
    | succ fuel =>
      cases p with
      | nil => exact absurd rfl hp
      | cons pc pcs =>
        simp only [List.cons_append, replaceAllGo, List.append_eq]
        have hpre : (pc :: pcs).isPrefixOf (pc :: (pcs ++ s)) = true := by
          have h := isPrefixOf_append_self (pc :: pcs) s
          simpa using h
        rw [hpre]
        simp only [Bool.and_true, List.isEmpty_cons, Bool.not_false, if_true]
        have hdrop : (pc :: (pcs ++ s)).drop (pc :: pcs).length = s := by
          have h : pc :: (pcs ++ s) = (pc :: pcs) ++ s := by simp
          rw [h, List.drop_left]
        rw [hdrop]
        congr 1
        apply replaceAllGo_fuel (pc :: pcs) q (by simp)
        · simp only [List.length_append, List.length_cons] at hf
          omega
        · exact le_rfl
  | cons c a' ih =>
    intro s fuel hf hno
    cases fuel with
    | zero => simp at hf
    | succ fuel =>
      simp only [List.cons_append, replaceAllGo, List.append_eq]
      have h0 : p.isPrefixOf (c :: (a' ++ p ++ s)) = false := by
        have := hno 0 (by simp)
        simpa using this
      rw [h0]
      simp only [Bool.and_false]
      rw [if_neg (by simp)]
      congr 1
      apply ih s fuel
      · simp only [List.length_append, List.length_cons] at hf ⊢
        omega
      · intro i hi
        have := hno (i + 1) (by simp only [List.length_cons]; omega)
        simpa using this

theorem deobf_eq_runFold (obf : String) (wm im : SMap)
    (hq : (reverse_changed im).all (fun kv => !quotedKey kv) = true)
    (hL : (restorePasses wm im).all wordPairOK = true) :
    deobfuscate_text obf wm im [] [] =
      ⟨((wordChunks obf.data).map (runFold (restorePasses wm im))).flatten⟩ := by
  rw [deobf_no_comments_strings obf wm im hq]
  have hcomb : (sortByKeyLenDesc (reverse_changed wm)).foldl
      (fun (res : String) kv => reSubWB res kv.1 kv.2)
      ((sortByKeyLenDesc (reverse_changed im)).foldl
        (fun (res : String) kv => reSubWB res kv.1 kv.2) obf) =
      (restorePasses wm im).foldl (fun (res : String) kv => reSubWB res kv.1 kv.2) obf := by
    rw [restorePasses, List.foldl_append]
  rw [hcomb]
  have hflat : obf = (⟨(wordChunks obf.data).flatten⟩ : String) := by
    simp only [wordChunks]
    rw [wordChunksGo_flatten obf.data.length obf.data le_rfl, string_mk_data]
  conv_lhs => rw [hflat]
  exact passes_fold (restorePasses wm im) hL (wordChunks obf.data)
    (wordChunksGo_ok obf.data.length obf.data none le_rfl
      (by intro pc c cs hpc _; simp at hpc))

theorem strReplace_splice (a ph b nw : String)
    (hpne : ph.data ≠ [])
    (hnoA : ∀ i, i < a.data.length →
      ph.data.isPrefixOf (((a ++ ph ++ b) : String).data.drop i) = false)
    (hnoB : noOcc ph.data b.data = true) :
    strReplace (a ++ ph ++ b) ph nw = a ++ nw ++ b := by
  have hd : ((a ++ ph ++ b) : String).data = a.data ++ ph.data ++ b.data := by
    simp [String.data_append]
  rw [strReplace, hd]
  rw [hd] at hnoA
  rw [replaceAllGo_splice ph.data nw.data hpne a.data b.data _ le_rfl hnoA]
  rw [replaceAllGo_no_occurrence ph.data nw.data hpne b.data.length b.data le_rfl hnoB]
  conv_rhs => rw [← string_mk_data (a ++ nw ++ b)]
  congr 1

theorem deobf_comment_only (s ph txt : String)
    (hph : ("/*" : String).data.isPrefixOf ph.data = true) :
    deobfuscate_text s [] [] [(ph, txt)] [] = strReplace s ph (txt ++ "\n") := by
  simp only [deobfuscate_text, sortByKeyLenDesc, List.foldr, insertByLenDesc,
    List.foldl, List.isEmpty_cons, List.isEmpty_nil, hph, if_true, if_false,
    Bool.false_eq_true, ite_false, ite_true]

/-- C1 (amended): for a run of `obfuscate_code_section` from an empty store
that emits no comment and no string replacements, deobfuscating the output
with the run's mappings restores the source byte-identically, provided the
run's identifier reverse map has no quoted legacy entries, every restoration
pair is a nonempty word-constituent string, and the combined whole-word
restoration fold maps each word-run of the output back to the corresponding
word-run of the source — the condition that fails under deterministic-hash
collisions. Separately, a comment placeholder surrounded by placeholder-free
text is restored in place as the original comment text plus a trailing
newline. -/
theorem roundtrip_amended (ad : LanguageAdapter) (source : String) (tree : TSNode)
    (out : String) (wm im : SMap)
    (hrun : ObfuscationEngine.obfuscate_code_section ad source tree [] [] [] [] =
      ⟨out, wm, im, [], []⟩)
    (hq : (reverse_changed im).all (fun kv => !quotedKey kv) = true)
    (hL : (restorePasses wm im).all wordPairOK = true)
    (hrestore : (wordChunks out.data).map (runFold (restorePasses wm im)) =
      wordChunks source.data) :
    deobfuscate_text
      (ObfuscationEngine.obfuscate_code_section ad source tree [] [] [] []).output
      (ObfuscationEngine.obfuscate_code_section ad source tree [] [] [] []).word_mapping
      (ObfuscationEngine.obfuscate_code_section ad source tree [] [] [] []).identifier_mapping
      (ObfuscationEngine.obfuscate_code_section ad source tree [] [] [] []).comment_mapping
      (ObfuscationEngine.obfuscate_code_section ad source tree [] [] [] []).string_mapping
      = source ∧
    ∀ (a b ph txt : String),
      ("/*" : String).data.isPrefixOf ph.data = true →
      ph.data ≠ [] →
      (∀ i, i < a.data.length →
        ph.data.isPrefixOf (((a ++ ph ++ b) : String).data.drop i) = false) →
      noOcc ph.data b.data = true →
      deobfuscate_text (a ++ ph ++ b) [] [] [(ph, txt)] [] =
        a ++ (txt ++ "\n") ++ b := by
  constructor
  · rw [hrun]
    show deobfuscate_text out wm im [] [] = source
    rw [deobf_eq_runFold out wm im hq hL, hrestore]
    simp only [wordChunks]
    rw [wordChunksGo_flatten source.data.length source.data le_rfl, string_mk_data]
  · intro a b ph txt hph hpne hnoA hnoB
    rw [deobf_comment_only (a ++ ph ++ b) ph txt hph]
    exact strReplace_splice a ph b (txt ++ "\n") hpne hnoA hnoB

/-- Witness for the amended round trip: obfuscating `foo bar` under the C#
adapter yields `T91 D1746` with word and identifier maps
`foo to T91, bar to D1746`; deobfuscation restores `foo bar`, and a comment
placeholder in surrounding text is restored with a trailing newline. -/
theorem roundtrip_amended_witness :
    deobfuscate_text
      (ObfuscationEngine.obfuscate_code_section CSharpAdapter "foo bar"
        (.mk "program" 0 7 [.mk "identifier" 0 3 [], .mk "identifier" 4 7 []])
        [] [] [] []).output
      (ObfuscationEngine.obfuscate_code_section CSharpAdapter "foo bar"
        (.mk "program" 0 7 [.mk "identifier" 0 3 [], .mk "identifier" 4 7 []])
        [] [] [] []).word_mapping
      (ObfuscationEngine.obfuscate_code_section CSharpAdapter "foo bar"
        (.mk "program" 0 7 [.mk "identifier" 0 3 [], .mk "identifier" 4 7 []])
        [] [] [] []).identifier_mapping
      (ObfuscationEngine.obfuscate_code_section CSharpAdapter "foo bar"
        (.mk "program" 0 7 [.mk "identifier" 0 3 [], .mk "identifier" 4 7 []])
        [] [] [] []).comment_mapping
      (ObfuscationEngine.obfuscate_code_section CSharpAdapter "foo bar"
        (.mk "program" 0 7 [.mk "identifier" 0 3 [], .mk "identifier" 4 7 []])
        [] [] [] []).string_mapping
      = "foo bar" ∧
    deobfuscate_text ("int x; " ++ "/*__CMT0__*/" ++ " y") [] []
      [("/*__CMT0__*/", "// note")] [] =
      "int x; " ++ ("// note" ++ "\n") ++ " y" := by
  have h := roundtrip_amended CSharpAdapter "foo bar"
    (.mk "program" 0 7 [.mk "identifier" 0 3 [], .mk "identifier" 4 7 []])
    "T91 D1746" [("foo", "T91"), ("bar", "D1746")] [("foo", "T91"), ("bar", "D1746")]
    (by decide) (by decide) (by decide) (by decide)
  exact ⟨h.1, h.2 "int x; " " y" "/*__CMT0__*/" "// note"
    (by decide) (by decide) (by decide) (by decide)⟩

namespace ObfuscationEngine

theorem lookup_single (k v x : String) :
    ([(k, v)] : SMap).lookup x = if x = k then some v else none := by
  by_cases hx : x = k
  · subst hx
    simp [List.lookup]
  · simp [List.lookup, beq_false_of_ne hx, hx]

theorem lookup_append_single (wm : SMap) (k v x : String) :
    (wm ++ [(k, v)]).lookup x =
      match wm.lookup x with
      | some w => some w
      | none => if x = k then some v else none := by
  cases h : wm.lookup x with
  | some w => exact lookup_append_some wm [(k, v)] x w h
  | none => rw [lookup_append_none wm [(k, v)] x h, lookup_single]

theorem wmCanon_nil : wmCanon ([] : SMap) := by
  intro p v h
  exact Option.noConfusion h


theorem map_subword_char (ad : LanguageAdapter) (wm : SMap) (part : String)
    (hc : wmCanon wm) :
    (map_subword ad wm part).1 = pureSubTok ad part ∧
    (∀ x, (map_subword ad wm part).2.lookup x =
      if x = part ∧ should_preserve ad part = false
      then some (deterministic_hash x) else wm.lookup x) ∧
    wmCanon (map_subword ad wm part).2 := by
  have hchar : ∀ x, (map_subword ad wm part).2.lookup x =
      if x = part ∧ should_preserve ad part = false
      then some (deterministic_hash x) else wm.lookup x := by
    intro x
    by_cases hp : should_preserve ad part
    · have hms : map_subword ad wm part = (part, wm) := by simp [map_subword, hp]
      rw [hms]
      rw [if_neg (fun hcc : x = part ∧ should_preserve ad part = false =>
        Bool.true_eq_false.mp (hp.symm.trans hcc.2))]
    · have hpf : should_preserve ad part = false := by simpa using hp
      cases hl : wm.lookup part with
      | some tok =>
        have hms : map_subword ad wm part = (tok, wm) := by simp [map_subword, hpf, hl]
        rw [hms]
        by_cases hx : x = part
        · subst hx
          rw [if_pos ⟨rfl, hpf⟩, hl, hc _ tok hl]
        · rw [if_neg (fun hcc : x = part ∧ should_preserve ad part = false => hx hcc.1)]
      | none =>
        have hms : map_subword ad wm part =
            (deterministic_hash part, wm ++ [(part, deterministic_hash part)]) := by
          simp [map_subword, hpf, hl]
        rw [hms, lookup_append_single]
        by_cases hx : x = part
        · subst hx
          rw [hl, if_pos rfl, if_pos ⟨rfl, hpf⟩]
        · cases hw : wm.lookup x with
          | some w =>
            rw [if_neg (fun hcc : x = part ∧ should_preserve ad part = false =>
              hx hcc.1)]
          | none =>
            rw [if_neg (fun hcc : x = part ∧ should_preserve ad part = false =>
              hx hcc.1)]
            exact if_neg hx
  have hfst : (map_subword ad wm part).1 = pureSubTok ad part := by
    by_cases hp : should_preserve ad part
    · simp [map_subword, pureSubTok, hp]
    · have hpf : should_preserve ad part = false := by simpa using hp
      cases hl : wm.lookup part with
      | some tok => simp [map_subword, pureSubTok, hpf, hl, hc _ tok hl]
      | none => simp [map_subword, pureSubTok, hpf, hl]
  refine ⟨hfst, hchar, ?_⟩
  intro p v h
  rw [hchar p] at h
  by_cases hcond : p = part ∧ should_preserve ad part = false
  · rw [if_pos hcond] at h
    exact (Option.some.inj h).symm
  · rw [if_neg hcond] at h
    exact hc p v h

theorem subword_fold_char (ad : LanguageAdapter) :
    ∀ (parts : List String) (acc : List String) (wm : SMap), wmCanon wm →
      ((parts.foldl (subword_step ad) (acc, wm)).1 =
        acc ++ parts.map (pureSubTok ad)) ∧
      (∀ x, (parts.foldl (subword_step ad) (acc, wm)).2.lookup x =
        if x ∈ parts ∧ should_preserve ad x = false
        then some (deterministic_hash x) else wm.lookup x) ∧
      wmCanon (parts.foldl (subword_step ad) (acc, wm)).2 := by
  intro parts
  induction parts with
  | nil =>
    intro acc wm hc
    refine ⟨by simp, ?_, hc⟩
    intro x
    rw [if_neg (fun hcc : x ∈ ([] : List String) ∧ should_preserve ad x = false =>
      absurd hcc.1 (List.not_mem_nil x))]
    rfl
  | cons p ps ih =>
    intro acc wm hc
    obtain ⟨hfst, hchar, hcanon⟩ := map_subword_char ad wm p hc
    have hstep : subword_step ad (acc, wm) p =
        (acc ++ [pureSubTok ad p], (map_subword ad wm p).2) := by
      simp [subword_step, hfst]
    rw [List.foldl_cons, hstep]
    obtain ⟨ih1, ih2, ih3⟩ := ih (acc ++ [pureSubTok ad p]) (map_subword ad wm p).2 hcanon
    refine ⟨?_, ?_, ih3⟩
    · rw [ih1]
      simp
    · intro x
      rw [ih2 x, hchar x]
      by_cases hmem : x ∈ ps ∧ should_preserve ad x = false
      · rw [if_pos hmem, if_pos ⟨List.mem_cons_of_mem p hmem.1, hmem.2⟩]
      · rw [if_neg hmem]
        by_cases hxp : x = p ∧ should_preserve ad p = false
        · have hx2 : x ∈ p :: ps ∧ should_preserve ad x = false := by
            constructor
            · rw [hxp.1]
              exact List.mem_cons_self p ps
            · rw [hxp.1]
              exact hxp.2
          rw [if_pos hxp, if_pos hx2]
        · rw [if_neg hxp]
          rw [if_neg (fun hcc : x ∈ p :: ps ∧ should_preserve ad x = false => by
            rcases List.mem_cons.mp hcc.1 with h | h
            · exact hxp ⟨h, by rw [← h]; exact hcc.2⟩
            · exact hmem ⟨h, hcc.2⟩)]

theorem obfuscate_body_char (ad : LanguageAdapter) (s : String) (wm : SMap)
    (hc : wmCanon wm) :
    (obfuscate_body ad s wm).1 =
      String.join ((split_camelcase s).map (pureSubTok ad)) ∧
    (∀ x, (obfuscate_body ad s wm).2.lookup x =
      if x ∈ bodyParts ad s then some (deterministic_hash x) else wm.lookup x) ∧
    wmCanon (obfuscate_body ad s wm).2 := by
  obtain ⟨h1, h2, h3⟩ := subword_fold_char ad (split_camelcase s) [] wm hc
  refine ⟨?_, ?_, h3⟩
  · show String.join ((split_camelcase s).foldl (subword_step ad) ([], wm)).1 = _
    rw [h1]
    simp
  · intro x
    show ((split_camelcase s).foldl (subword_step ad) ([], wm)).2.lookup x = _
    rw [h2 x]
    by_cases hb : x ∈ split_camelcase s ∧ should_preserve ad x = false
    · rw [if_pos hb, if_pos (by
        rw [bodyParts, List.mem_filter]
        exact ⟨hb.1, by rw [hb.2]; rfl⟩)]
    · rw [if_neg hb, if_neg (fun hbb => hb (by
        rw [bodyParts, List.mem_filter] at hbb
        exact ⟨hbb.1, by simpa using hbb.2⟩))]

theorem obfuscate_composite_char (ad : LanguageAdapter) (name : String) (wm : SMap)
    (hc : wmCanon wm) :
    (obfuscate_composite ad name wm).1 = pureTok ad name ∧
    (∀ x, (obfuscate_composite ad name wm).2.lookup x =
      if x ∈ insParts ad name then some (deterministic_hash x) else wm.lookup x) ∧
    wmCanon (obfuscate_composite ad name wm).2 := by
  by_cases hp : should_preserve ad name
  · refine ⟨by simp [obfuscate_composite, pureTok, hp], ?_,
      by simpa [obfuscate_composite, hp] using hc⟩
    intro x
    have hi : insParts ad name = [] := by simp [insParts, hp]
    rw [hi, if_neg (List.not_mem_nil x)]
    simp [obfuscate_composite, hp]
  · have hpf : should_preserve ad name = false := by simpa using hp
    cases hsf : findPreservedSuffix ad name with
    | some sfx =>
      obtain ⟨h1, h2, h3⟩ :=
        obfuscate_body_char ad ⟨name.data.take (name.length - sfx.length)⟩ wm hc
      have hco : obfuscate_composite ad name wm =
          ((obfuscate_body ad ⟨name.data.take (name.length - sfx.length)⟩ wm).1 ++ sfx,
           (obfuscate_body ad ⟨name.data.take (name.length - sfx.length)⟩ wm).2) := by
        simp [obfuscate_composite, hpf, hsf]
      have hi : insParts ad name =
          bodyParts ad ⟨name.data.take (name.length - sfx.length)⟩ := by
        simp [insParts, hpf, hsf]
      refine ⟨?_, ?_, ?_⟩
      · rw [hco]
        show (obfuscate_body ad _ wm).1 ++ sfx = _
        rw [h1, pureTok, if_neg (by rw [hpf]; exact Bool.false_ne_true), hsf]
      · intro x
        rw [hco, hi]
        exact h2 x
      · rw [hco]
        exact h3
    | none =>
      obtain ⟨h1, h2, h3⟩ := obfuscate_body_char ad name wm hc
      have hco : obfuscate_composite ad name wm = obfuscate_body ad name wm := by
        simp [obfuscate_composite, hpf, hsf]
      have hi : insParts ad name = bodyParts ad name := by
        simp [insParts, hpf, hsf]
      refine ⟨?_, ?_, ?_⟩
      · rw [hco, h1, pureTok, if_neg (by rw [hpf]; exact Bool.false_ne_true), hsf]
      · intro x
        rw [hco, hi]
        exact h2 x
      · rw [hco]
        exact h3

theorem build_id_step_char (ad : LanguageAdapter) (wm im : SMap) (name : String)
    (hc : wmCanon wm) (hn : im.lookup name = none) :
    (∀ x, (build_id_step ad (wm, im) name).2.lookup x =
      if x = name then some (pureIdTok ad name) else im.lookup x) ∧
    (∀ x, (build_id_step ad (wm, im) name).1.lookup x =
      if x ∈ idParts ad name then some (deterministic_hash x) else wm.lookup x) ∧
    wmCanon (build_id_step ad (wm, im) name).1 := by
  by_cases hex : ad.exclude_patterns.contains (lowerStr name)
  · have hstep : build_id_step ad (wm, im) name = (wm, im ++ [(name, name)]) := by
      simp only [build_id_step, hn]
      rw [if_pos hex]
    have hsnd : (build_id_step ad (wm, im) name).2 = im ++ [(name, name)] := by
      rw [hstep]
    have hfstp : (build_id_step ad (wm, im) name).1 = wm := by
      rw [hstep]
    have hit : pureIdTok ad name = name := by
      simp only [pureIdTok]
      rw [if_pos hex]
    have hip : idParts ad name = [] := by
      simp only [idParts]
      rw [if_pos hex]
    refine ⟨?_, ?_, by rw [hfstp]; exact hc⟩
    · intro x
      rw [hsnd, lookup_append_single, hit]
      by_cases hx : x = name
      · subst hx
        rw [hn]
      · cases hw : im.lookup x with
        | some w => rw [if_neg hx, if_neg hx]
        | none => rw [if_neg hx]
    · intro x
      rw [hfstp, hip, if_neg (List.not_mem_nil x)]
  · obtain ⟨h1, h2, h3⟩ := obfuscate_composite_char ad name wm hc
    have hstep : build_id_step ad (wm, im) name =
        ((obfuscate_composite ad name wm).2,
          im ++ [(name, (obfuscate_composite ad name wm).1)]) := by
      simp only [build_id_step, hn]
      rw [if_neg hex]
    have hsnd : (build_id_step ad (wm, im) name).2 =
        im ++ [(name, (obfuscate_composite ad name wm).1)] := by
      rw [hstep]
    have hfstp : (build_id_step ad (wm, im) name).1 =
        (obfuscate_composite ad name wm).2 := by
      rw [hstep]
    have hit : pureIdTok ad name = pureTok ad name := by
      simp only [pureIdTok]
      rw [if_neg hex]
    have hip : idParts ad name = insParts ad name := by
      simp only [idParts]
      rw [if_neg hex]
    refine ⟨?_, ?_, by rw [hfstp]; exact h3⟩
    · intro x
      rw [hsnd, lookup_append_single, h1, hit]
      by_cases hx : x = name
      · subst hx
        rw [hn]
      · cases hw : im.lookup x with
        | some w => rw [if_neg hx, if_neg hx]
        | none => rw [if_neg hx]
    · intro x
      rw [hfstp, hip]
      exact h2 x

theorem build_fold_char (ad : LanguageAdapter) :
    ∀ (o : List String) (wm im : SMap), wmCanon wm → o.Nodup →
      (∀ n, n ∈ o → im.lookup n = none) →
      (∀ x, (build_identifier_mapping ad o wm im).2.lookup x =
        if x ∈ o then some (pureIdTok ad x) else im.lookup x) ∧
      (∀ x, (build_identifier_mapping ad o wm im).1.lookup x =
        if ∃ n, n ∈ o ∧ x ∈ idParts ad n then some (deterministic_hash x)
        else wm.lookup x) ∧
      wmCanon (build_identifier_mapping ad o wm im).1 := by
  intro o
  induction o with
  | nil =>
    intro wm im hc _ _
    refine ⟨?_, ?_, hc⟩
    · intro x
      rw [if_neg (List.not_mem_nil x)]
      rfl
    · intro x
      rw [if_neg (fun hcc : ∃ n, n ∈ ([] : List String) ∧ x ∈ idParts ad n => by
        obtain ⟨n, hn, -⟩ := hcc
        exact List.not_mem_nil n hn)]
      rfl
  | cons m o' ih =>
    intro wm im hc hnd hun
    have hm : im.lookup m = none := hun m (List.mem_cons_self m o')
    obtain ⟨s1, s2, s3⟩ := build_id_step_char ad wm im m hc hm
    have hfold : build_identifier_mapping ad (m :: o') wm im =
        build_identifier_mapping ad o' (build_id_step ad (wm, im) m).1
          (build_id_step ad (wm, im) m).2 := rfl
    obtain ⟨hnodup1, hnodup2⟩ := List.nodup_cons.mp hnd
    have hun2 : ∀ n, n ∈ o' → (build_id_step ad (wm, im) m).2.lookup n = none := by
      intro n hn
      rw [s1 n, if_neg (fun he : n = m => hnodup1 (he ▸ hn))]
      exact hun n (List.mem_cons_of_mem m hn)
    obtain ⟨i1, i2, i3⟩ := ih (build_id_step ad (wm, im) m).1
      (build_id_step ad (wm, im) m).2 s3 hnodup2 hun2
    refine ⟨?_, ?_, by rw [hfold]; exact i3⟩
    · intro x
      rw [hfold, i1 x, s1 x]
      by_cases h1 : x ∈ o'
      · rw [if_pos h1, if_pos (List.mem_cons_of_mem m h1)]
      · rw [if_neg h1]
        by_cases h2 : x = m
        · rw [if_pos h2, if_pos (by rw [h2]; exact List.mem_cons_self m o')]
          rw [h2]
        · rw [if_neg h2, if_neg (fun hmem : x ∈ m :: o' => by
            rcases List.mem_cons.mp hmem with h | h
            exacts [h2 h, h1 h])]
    · intro x
      rw [hfold, i2 x, s2 x]
      by_cases h1 : ∃ n, n ∈ o' ∧ x ∈ idParts ad n
      · rw [if_pos h1, if_pos (by
          obtain ⟨n, hn, hx⟩ := h1
          exact ⟨n, List.mem_cons_of_mem m hn, hx⟩)]
      · rw [if_neg h1]
        by_cases h2 : x ∈ idParts ad m
        · rw [if_pos h2, if_pos ⟨m, List.mem_cons_self m o', h2⟩]
        · rw [if_neg h2, if_neg (fun hcc : ∃ n, n ∈ m :: o' ∧ x ∈ idParts ad n => by
            obtain ⟨n, hn, hx⟩ := hcc
            rcases List.mem_cons.mp hn with h | h
            · exact h2 (h ▸ hx)
            · exact h1 ⟨n, h, hx⟩)]

theorem sizeN_pos (nd : TSNode) : 1 ≤ sizeN nd := by
  cases nd with
  | mk t s e cs =>
    simp only [sizeN]
    omega

theorem collect_mods_step_congr (ad : LanguageAdapter) (src : List Nat)
    (sr pr : List (Nat × Nat)) (im1 im2 : SMap)
    (h : ∀ x, im1.lookup x = im2.lookup x) (t : String) (s e : Nat) (st : ModState) :
    collect_mods_step ad src sr pr im1 t s e st =
      collect_mods_step ad src sr pr im2 t s e st := by
  simp only [collect_mods_step, h]

theorem collect_mods_congr (ad : LanguageAdapter) (src : List Nat)
    (sr pr : List (Nat × Nat)) (im1 im2 : SMap)
    (h : ∀ x, im1.lookup x = im2.lookup x) :
    ∀ (k : Nat),
      (∀ nd : TSNode, sizeN nd ≤ k → ∀ st,
        collect_mods_node ad src sr pr im1 nd st =
          collect_mods_node ad src sr pr im2 nd st) ∧
      (∀ cs : List TSNode, sizeL cs ≤ k → ∀ st,
        collect_mods_list ad src sr pr im1 cs st =
          collect_mods_list ad src sr pr im2 cs st) := by
  intro k
  induction k with
  | zero =>
    constructor
    · intro nd hnd st
      exact absurd hnd (by have := sizeN_pos nd; omega)
    · intro cs hcs st
      cases cs with
      | nil => rfl
      | cons c cs2 =>
        exfalso
        have h1 := sizeN_pos c
        simp only [sizeL] at hcs
        omega
  | succ k ih =>
    have hnode : ∀ nd : TSNode, sizeN nd ≤ k + 1 → ∀ st,
        collect_mods_node ad src sr pr im1 nd st =
          collect_mods_node ad src sr pr im2 nd st := by
      intro nd hnd st
      cases nd with
      | mk t s e cs =>
        simp only [collect_mods_node]
        rw [collect_mods_step_congr ad src sr pr im1 im2 h]
        apply ih.2
        simp only [sizeN] at hnd
        omega
    refine ⟨hnode, ?_⟩
    intro cs
    induction cs with
    | nil =>
      intro _ st
      rfl
    | cons c cs2 ihc =>
      intro hcs st
      simp only [collect_mods_list]
      rw [hnode c (by simp only [sizeL] at hcs; have := sizeN_pos c; omega) st]
      exact ihc (by simp only [sizeL] at hcs; have := sizeN_pos c; omega) _

theorem run_ord_indep (ad : LanguageAdapter) (source : String) (tree : TSNode)
    (o1 o2 : List String) (h1 : o1.Nodup) (h2 : o2.Nodup)
    (hm : ∀ x, x ∈ o1 ↔ x ∈ o2) :
    ((obfuscate_code_section_ord ad source tree [] [] [] [] o1).output =
      (obfuscate_code_section_ord ad source tree [] [] [] [] o2).output) ∧
    ((obfuscate_code_section_ord ad source tree [] [] [] [] o1).comment_mapping =
      (obfuscate_code_section_ord ad source tree [] [] [] [] o2).comment_mapping) ∧
    ((obfuscate_code_section_ord ad source tree [] [] [] [] o1).string_mapping =
      (obfuscate_code_section_ord ad source tree [] [] [] [] o2).string_mapping) ∧
    (∀ x, (obfuscate_code_section_ord ad source tree [] [] [] [] o1).word_mapping.lookup x =
      (obfuscate_code_section_ord ad source tree [] [] [] [] o2).word_mapping.lookup x) ∧
    (∀ x,
      (obfuscate_code_section_ord ad source tree [] [] [] [] o1).identifier_mapping.lookup x =
      (obfuscate_code_section_ord ad source tree [] [] [] [] o2).identifier_mapping.lookup x) := by
  obtain ⟨c1i, c1w, -⟩ := build_fold_char ad o1 [] [] wmCanon_nil h1 (fun n _ => rfl)
  obtain ⟨c2i, c2w, -⟩ := build_fold_char ad o2 [] [] wmCanon_nil h2 (fun n _ => rfl)
  have him : ∀ x, (build_identifier_mapping ad o1 [] []).2.lookup x =
      (build_identifier_mapping ad o2 [] []).2.lookup x := by
    intro x
    rw [c1i x, c2i x]
    by_cases hx : x ∈ o1
    · rw [if_pos hx, if_pos ((hm x).mp hx)]
    · rw [if_neg hx, if_neg (fun hh => hx ((hm x).mpr hh))]
  have hwm : ∀ x, (build_identifier_mapping ad o1 [] []).1.lookup x =
      (build_identifier_mapping ad o2 [] []).1.lookup x := by
    intro x
    rw [c1w x, c2w x]
    by_cases hx : ∃ n, n ∈ o1 ∧ x ∈ idParts ad n
    · rw [if_pos hx, if_pos (by
        obtain ⟨n, hn, hp⟩ := hx
        exact ⟨n, (hm n).mp hn, hp⟩)]
    · rw [if_neg hx, if_neg (fun hh : ∃ n, n ∈ o2 ∧ x ∈ idParts ad n => hx (by
        obtain ⟨n, hn, hp⟩ := hh
        exact ⟨n, (hm n).mpr hn, hp⟩))]
  have hst : ∀ st0 : ModState,
      collect_mods_node ad (utf8 source) (collectNode ad (utf8 source) tree).1
        (ad.preserve_import_ranges (utf8 source) tree)
        (build_identifier_mapping ad o1 [] []).2 tree st0 =
      collect_mods_node ad (utf8 source) (collectNode ad (utf8 source) tree).1
        (ad.preserve_import_ranges (utf8 source) tree)
        (build_identifier_mapping ad o2 [] []).2 tree st0 := by
    intro st0
    exact (collect_mods_congr ad (utf8 source) (collectNode ad (utf8 source) tree).1
      (ad.preserve_import_ranges (utf8 source) tree)
      (build_identifier_mapping ad o1 [] []).2
      (build_identifier_mapping ad o2 [] []).2 him (sizeN tree)).1 tree le_rfl st0
  refine ⟨?_, ?_, ?_, hwm, him⟩
  · show bytesToStr (apply_mods (utf8 source)
      (sortMods (collect_mods_node ad (utf8 source)
        (collectNode ad (utf8 source) tree).1
        (ad.preserve_import_ranges (utf8 source) tree)
        (build_identifier_mapping ad o1 [] []).2 tree
        ⟨[], [], [], List.length ([] : SMap)⟩).mods) 0) = _
    rw [hst]
    rfl
  · show (collect_mods_node ad (utf8 source)
        (collectNode ad (utf8 source) tree).1
        (ad.preserve_import_ranges (utf8 source) tree)
        (build_identifier_mapping ad o1 [] []).2 tree
        ⟨[], [], [], List.length ([] : SMap)⟩).comment_mapping = _
    rw [hst]
    rfl
  · show (collect_mods_node ad (utf8 source)
        (collectNode ad (utf8 source) tree).1
        (ad.preserve_import_ranges (utf8 source) tree)
        (build_identifier_mapping ad o1 [] []).2 tree
        ⟨[], [], [], List.length ([] : SMap)⟩).string_mapping = _
    rw [hst]
    rfl

end ObfuscationEngine

theorem sameMembers_iff (l1 l2 : List String) (h : sameMembers l1 l2 = true) :
    ∀ x, x ∈ l1 ↔ x ∈ l2 := by
  intro x
  rw [sameMembers, Bool.and_eq_true] at h
  obtain ⟨ha, hb⟩ := h
  constructor
  · intro hx
    have := List.all_eq_true.mp ha x hx
    simpa using this
  · intro hx
    have := List.all_eq_true.mp hb x hx
    simpa using this

/-- C2 (amended): for a fixed adapter and source, obfuscation from an empty
store is deterministic in everything except dictionary entry order: the
first-insertion-order embedding is one instance of the order-parameterised
run, and any two iteration orders of the collected identifier set (the
hash-seed-dependent orders in which CPython may iterate the
`all_identifiers` set) produce byte-identical obfuscated output, identical
comment and string mappings, and word and identifier mappings that agree as
key-to-value functions. The persisted file is not byte-identical across
runs: it decomposes as a fixed prefix, the escaped `created_at` timestamp,
and a tail determined by the mapping lists — and lookup-equal mappings with
different entry orders serialize to different bytes, so the files of two
runs can differ even at equal timestamps. -/
theorem determinism_amended (ad : LanguageAdapter) (source : String) (tree : TSNode)
    (o1 o2 : List String) (h1 : o1.Nodup) (h2 : o2.Nodup)
    (hs1 : sameMembers o1 (ObfuscationEngine.collectNode ad (utf8 source) tree).2 = true)
    (hs2 : sameMembers o2 (ObfuscationEngine.collectNode ad (utf8 source) tree).2 = true) :
    (ObfuscationEngine.obfuscate_code_section ad source tree [] [] [] [] =
      ObfuscationEngine.obfuscate_code_section_ord ad source tree [] [] [] []
        (dedupFirst (ObfuscationEngine.collectNode ad (utf8 source) tree).2)) ∧
    ((ObfuscationEngine.obfuscate_code_section_ord ad source tree [] [] [] [] o1).output =
      (ObfuscationEngine.obfuscate_code_section_ord ad source tree [] [] [] [] o2).output) ∧
    ((ObfuscationEngine.obfuscate_code_section_ord ad source tree [] [] [] [] o1).comment_mapping =
      (ObfuscationEngine.obfuscate_code_section_ord ad source tree [] [] [] [] o2).comment_mapping) ∧
    ((ObfuscationEngine.obfuscate_code_section_ord ad source tree [] [] [] [] o1).string_mapping =
      (ObfuscationEngine.obfuscate_code_section_ord ad source tree [] [] [] [] o2).string_mapping) ∧
    (∀ x,
      (ObfuscationEngine.obfuscate_code_section_ord ad source tree [] [] [] [] o1).word_mapping.lookup x =
      (ObfuscationEngine.obfuscate_code_section_ord ad source tree [] [] [] [] o2).word_mapping.lookup x) ∧
    (∀ x,
      (ObfuscationEngine.obfuscate_code_section_ord ad source tree [] [] [] [] o1).identifier_mapping.lookup x =
      (ObfuscationEngine.obfuscate_code_section_ord ad source tree [] [] [] [] o2).identifier_mapping.lookup x) ∧
    (∀ (now : String) (wm im cm sm : SMap),
      ObfuscationEngine.save_mapping_file ad wm im cm sm now =
      savePre ++ jsonStr now ++
        ObfuscationEngine.save_tail
          (ObfuscationEngine.save_mapping_data ad wm im cm sm now)) ∧
    ((let r := ObfuscationEngine.obfuscate_code_section_ord CSharpAdapter "ab cd"
        (.mk "program" 0 5 [.mk "identifier" 0 2 [], .mk "identifier" 3 5 []])
        [] [] [] [] ["ab", "cd"]
      ObfuscationEngine.save_mapping_file CSharpAdapter r.word_mapping
        r.identifier_mapping r.comment_mapping r.string_mapping
        "2025-01-02T03:04:05") ≠
     (let r := ObfuscationEngine.obfuscate_code_section_ord CSharpAdapter "ab cd"
        (.mk "program" 0 5 [.mk "identifier" 0 2 [], .mk "identifier" 3 5 []])
        [] [] [] [] ["cd", "ab"]
      ObfuscationEngine.save_mapping_file CSharpAdapter r.word_mapping
        r.identifier_mapping r.comment_mapping r.string_mapping
        "2025-01-02T03:04:05")) := by
  have hm12 : ∀ x, x ∈ o1 ↔ x ∈ o2 := fun x =>
    (sameMembers_iff o1 _ hs1 x).trans (sameMembers_iff o2 _ hs2 x).symm
  obtain ⟨q1, q2, q3, q4, q5⟩ :=
    ObfuscationEngine.run_ord_indep ad source tree o1 o2 h1 h2 hm12
  refine ⟨rfl, q1, q2, q3, q4, q5, ?_, ?_⟩
  · intro now wm im cm sm
    show ObfuscationEngine.serialize_save_data _ = _
    simp only [ObfuscationEngine.serialize_save_data, ObfuscationEngine.save_tail,
      savePre, ObfuscationEngine.save_mapping_data, joinSep, String.append_assoc]
  · decide

/-- Witness for the amended determinism claim: obfuscating `ab cd` under the
two possible iteration orders of the identifier set produces the same output
text `T8337 T3831`. -/
theorem determinism_amended_witness :
    (ObfuscationEngine.obfuscate_code_section_ord CSharpAdapter "ab cd"
      (.mk "program" 0 5 [.mk "identifier" 0 2 [], .mk "identifier" 3 5 []])
      [] [] [] [] ["ab", "cd"]).output =
    (ObfuscationEngine.obfuscate_code_section_ord CSharpAdapter "ab cd"
      (.mk "program" 0 5 [.mk "identifier" 0 2 [], .mk "identifier" 3 5 []])
      [] [] [] [] ["cd", "ab"]).output :=
  (determinism_amended CSharpAdapter "ab cd"
    (.mk "program" 0 5 [.mk "identifier" 0 2 [], .mk "identifier" 3 5 []])
    ["ab", "cd"] ["cd", "ab"] (by decide) (by decide) (by decide) (by decide)).2.1
